import Mathlib

/-!
Shallow embedding of the diagnostic-graph engine of this repository
(`src/feature_engine/...`) and proofs about the frozen claims.

The Python source keeps nodes as objects that reference each other; here
nodes are referenced by their unique `node_id` strings (the source's ids are
globally unique, and the spec's own design notes recommend exactly this
arena-by-id representation), and every mutating method is embedded as a pure
function from the state it reads to the state it writes plus its returned
value.  LLM calls and user interaction are oracle parameters.
-/

namespace FE

/-- Node kinds, from `feature_engine/feature_tree/node.py` (`class NodeType(Enum)`). -/
inductive NodeType
  | feature
  | solution
  | success
  | failure
  | problem
  | origin
  deriving DecidableEq, Repr

/-- The `.value` strings of the Python enum. -/
def NodeType.value : NodeType → String
  | .feature => "Feature"
  | .solution => "Solution"
  | .success => "Success"
  | .failure => "Failure"
  | .problem => "Problem"
  | .origin => "Origin"

/-- What a behavior's `{"next_node": ...}` dictionary carries: either a node
object (identified by its unique `node_id`) or the string sentinel
`"FAILURE"`. -/
inductive RetVal
  | node (id : String)
  | failureSentinel
  deriving DecidableEq, Repr

/-- A problem node as the traversal code reads and writes it:
`node_id`, `visited`, and the `mode` field (`problem.py` ctor). -/
structure PNode where
  node_id : String
  visited : Bool
  mode : String
  deriving DecidableEq, Repr

/-- A feature node as seen from a parent choosing among children:
`node_id` and `visited` (descriptions only feed the LLM prompt). -/
structure FNode where
  node_id : String
  visited : Bool
  deriving DecidableEq, Repr

/-- A solution node as seen from its parent problem. -/
structure SNode where
  node_id : String
  visited : Bool
  deriving DecidableEq, Repr

/-- Outcome of an `llm_select` / `pick_child_feature_index` call as the
caller observes it: a returned index (possibly `None`), or a raised
exception (caught by the caller's `except` clause). -/
inductive SelOutcome
  | ok (idx : Option Int)
  | exn
  deriving DecidableEq, Repr

/-- The reply strings that the node code accepts as "yes"
(`reply in ("yes", "y", "true", "1", True)`; the `True` literal can not be
produced by the string-valued callbacks). -/
def yesReplies : List String := ["yes", "y", "true", "1"]

/-- Python's `str.lower()` as the source applies it to link-mode strings
(which are ASCII `"hard"`/`"soft"` in every graph this code builds). -/
def pyLower (s : String) : String :=
  String.mk (s.data.map Char.toLower)

/-! ## FeatureNode (`feature_engine/feature_tree/Nodes/feature.py`) -/

/-- State of a `FeatureNode` that `process_next_node`/`_next_child_node`
read and write.  The parent object is only consulted for its `node_type`
and returned as-is, so it is represented by its id plus an is-Origin flag. -/
structure FeatureState where
  node_id : String
  expected_state : Bool
  parent_id : String
  parentIsOrigin : Bool
  child_problems : List (PNode × String)
  child_features : List FNode
  visited : Bool
  confirmed_positive : Bool
  deriving DecidableEq, Repr

/-- The `for problem, link_mode in self.child_problems` loop of
`FeatureNode._next_child_node`: find the first unvisited problem, set its
`mode` to `link_mode.lower()`, and return it together with the updated
list (the list holds the very objects that get mutated). -/
def descendProblems : List (PNode × String) → Option (PNode × List (PNode × String))
  | [] => none
  | (p, lm) :: rest =>
    if p.visited then
      match descendProblems rest with
      | some (q, rest') => some (q, (p, lm) :: rest')
      | none => none
    else
      let p' : PNode := { p with mode := pyLower lm }
      some (p', (p', lm) :: rest)

/-- `FeatureNode._select_next_feature`: filter unvisited children; with a
single candidate return it directly; otherwise ask `llm_select` and fall
back to the first candidate when the call raises, returns a non-int, or
returns an out-of-range index. -/
def selectNextFeature (cfs : List FNode) (sel : SelOutcome) : Option FNode :=
  match cfs.filter (fun f => !f.visited) with
  | [] => none
  | [c] => some c
  | c :: cs =>
    match sel with
    | .ok (some i) =>
      if 0 ≤ i ∧ i.toNat < (c :: cs).length then some ((c :: cs).getD i.toNat c)
      else some c
    | _ => some c

/-- `FeatureNode._next_child_node`: first unvisited child problem (with the
stored link mode copied into its `mode`), then an unvisited child feature,
then `"FAILURE"` when the parent is the Origin, else the parent. -/
def featureNextChild (f : FeatureState) (sel : SelOutcome) : RetVal × FeatureState :=
  match descendProblems f.child_problems with
  | some (p, cps') => (.node p.node_id, { f with child_problems := cps' })
  | none =>
    match selectNextFeature f.child_features sel with
    | some tf => (.node tf.node_id, f)
    | none =>
      if f.parentIsOrigin then (.failureSentinel, f)
      else (.node f.parent_id, f)

/-- `FeatureNode._auto_judge_from_chatlog` is a stub that always returns
`None` in the source (its body is `return None` under a TODO). -/
def autoJudgeFromChatlog : Option Bool := none

/-- `MAX_FOLLOWUPS` of `produce.make_interaction_callback`. -/
def MAX_FOLLOWUPS : Nat := 3

/-- The turn loop of the callback built by `produce.make_interaction_callback`:
`verdict t` is what `_llm_yes_no_from_user_text` decides after the user's
answer in turn `t` (`some` = definite yes/no, `none` = still unsure, "ask").
The loop runs `MAX_FOLLOWUPS + 1` turns; a definite verdict is returned as
`"yes"`/`"no"`, and when the last turn is still unsure the callback answers
`"no"` (`fallback_max_turns`).  `remaining` counts the follow-ups left. -/
def callbackGo (verdict : Nat → Option Bool) (turn : Nat) : Nat → String
  | 0 =>
    match verdict turn with
    | some true => "yes"
    | some false => "no"
    | none => "no"
  | n + 1 =>
    match verdict turn with
    | some true => "yes"
    | some false => "no"
    | none => callbackGo verdict (turn + 1) n

/-- The full reply of the interaction callback of `produce.py`: start at turn
0 with `MAX_FOLLOWUPS` follow-ups available. -/
def interactionReply (verdict : Nat → Option Bool) : String :=
  callbackGo verdict 0 MAX_FOLLOWUPS

/-- `FeatureNode.process_next_node` with the production interaction callback
(`produce.make_interaction_callback`) wired in: mark visited; the automatic
judgment is always `None`, so the interaction callback is consulted; on a
yes-reply set `confirmed_positive` and descend via `_next_child_node`,
otherwise return the parent node. -/
def featureProcess (f : FeatureState) (verdict : Nat → Option Bool) (sel : SelOutcome) :
    RetVal × FeatureState :=
  let f₁ : FeatureState := { f with visited := true }
  match autoJudgeFromChatlog with
  | some true => featureNextChild { f₁ with confirmed_positive := true } sel
  | some false => (.node f₁.parent_id, f₁)
  | none =>
    let reply := interactionReply verdict
    if reply ∈ yesReplies then
      featureNextChild { f₁ with confirmed_positive := true } sel
    else
      (.node f₁.parent_id, f₁)

/-! ## ProblemNode (`feature_engine/feature_tree/Nodes/problem.py`) -/

/-- State of a `ProblemNode` read by `process_next_node`.
`parent_feature_resolved` models `getattr(self.parent_feature, "resolved",
False)`; `FeatureNode` defines no `resolved` attribute, so on graphs built
by this code it is always `false`. -/
structure ProblemState where
  node_id : String
  mode : String
  parent_feature_id : String
  parent_feature_resolved : Bool
  solutions : List SNode
  child_features : List FNode
  visited : Bool
  resolved : Bool
  deriving DecidableEq, Repr

/-- `ProblemNode._check_problem_resolved`: the parent feature's (absent)
`resolved` attribute short-circuit, else ask the interaction callback
whether the parent feature has disappeared. -/
def checkProblemResolved (pr : ProblemState) (reply : String) : Bool :=
  pr.parent_feature_resolved || decide (reply ∈ yesReplies)

/-- `ProblemNode._select_next_feature`: plain first unvisited child feature. -/
def problemSelectNextFeature (cfs : List FNode) : Option FNode :=
  cfs.find? (fun f => !f.visited)

/-- `ProblemNode.process_next_node`: if already visited and the resolved
check answers yes, return the parent feature; otherwise mark visited, try
the first unvisited solution, then the first unvisited child feature, and
when nothing remains go to `"FAILURE"` when `mode == "hard"` else to the
parent feature. -/
def problemProcess (pr : ProblemState) (reply : String) : RetVal × ProblemState :=
  if pr.visited && checkProblemResolved pr reply then
    (.node pr.parent_feature_id, pr)
  else
    let pr₁ : ProblemState := { pr with visited := true }
    match pr₁.solutions.find? (fun s => !s.visited) with
    | some s => (.node s.node_id, pr₁)
    | none =>
      match problemSelectNextFeature pr₁.child_features with
      | some tf => (.node tf.node_id, pr₁)
      | none =>
        if pr₁.mode = "hard" then (.failureSentinel, pr₁)
        else (.node pr₁.parent_feature_id, pr₁)

/-! ## OriginNode (`feature_engine/feature_tree/Nodes/origin.py`) -/

/-- `OriginNode._select_next_feature`: filter unvisited children; a single
candidate is returned directly; otherwise `pick_child_feature_index` is
consulted, and the first candidate is the fallback when the call raises,
returns `None`, or returns an out-of-range index. -/
def originSelectNextFeature (cfs : List FNode) (pick : SelOutcome) : Option FNode :=
  match cfs.filter (fun f => !f.visited) with
  | [] => none
  | [c] => some c
  | c :: cs =>
    match pick with
    | .ok (some i) =>
      if 0 ≤ i ∧ i.toNat < (c :: cs).length then some ((c :: cs).getD i.toNat c)
      else some c
    | _ => some c

/-- `OriginNode.process_next_node`: pick an unvisited child feature, else
return the `"FAILURE"` sentinel. -/
def originProcess (cfs : List FNode) (pick : SelOutcome) : RetVal :=
  match originSelectNextFeature cfs pick with
  | some tf => .node tf.node_id
  | none => .failureSentinel

/-! ## The connect layer: the per-class `add_node` methods

Every node passed to `add_node` is observed only through its `node_id`,
`node_type`, and (for problems) its `mode` field which the feature rewrites. -/

/-- A node argument of an `add_node` call. -/
structure CNode where
  node_id : String
  node_type : NodeType
  mode : String := ""
  deriving DecidableEq, Repr

/-- The child collections an `add_node` call can touch on its receiver.
Problem children of features are kept with the stored link mode, and the
entry holds the child object itself (whose `mode` the method rewrites). -/
structure Links where
  child_problems : List (CNode × String) := []
  child_features : List CNode := []
  solutions : List CNode := []
  deriving DecidableEq, Repr

/-- A raised Python exception, by kind and message. -/
inductive PyExn
  | valueError (msg : String)
  | typeError (msg : String)
  deriving DecidableEq, Repr

/-- `OriginNode.add_node`: only FEATURE children are legal; duplicates (by
`node_id`) are logged and skipped. -/
def originAddNode (self : Links) (node : CNode) : Except PyExn Links :=
  if node.node_type ≠ .feature then
    .error (.valueError "ORIGIN may only connect to FEATURE")
  else if self.child_features.any (fun n => n.node_id == node.node_id) then
    .ok self
  else
    .ok { self with child_features := self.child_features ++ [node] }

/-- `FeatureNode.add_node`: a PROBLEM child gets the fixed policy — the
first problem of this feature is `"hard"`, all later ones `"soft"`, the
caller's `link_mode` keyword is ignored, and `problem.mode` is set to the
effective mode; a FEATURE child is appended (duplicates skipped); every
other target kind raises.  (The method also sets the child's back-pointer
to `self`, which only the child observes.) -/
def featureAddNode (self : Links) (node : CNode) (_link_mode : Option String) :
    Except PyExn Links :=
  if node.node_type = .problem then
    if self.child_problems.any (fun pl => pl.1.node_id == node.node_id) then
      .ok self
    else
      let effective : String := if self.child_problems.length = 0 then "hard" else "soft"
      .ok { self with
            child_problems := self.child_problems ++ [({ node with mode := effective }, effective)] }
  else if node.node_type = .feature then
    if self.child_features.any (fun n => n.node_id == node.node_id) then
      .ok self
    else
      .ok { self with child_features := self.child_features ++ [node] }
  else
    .error (.valueError "FEATURE may only connect to PROBLEM or FEATURE")

/-- `ProblemNode.add_node`: SOLUTION and FEATURE children are appended
(duplicates skipped); PROBLEM, SUCCESS, FAILURE and ORIGIN targets raise
with their own messages. -/
def problemAddNode (self : Links) (node : CNode) : Except PyExn Links :=
  match node.node_type with
  | .solution =>
    if self.solutions.any (fun n => n.node_id == node.node_id) then
      .ok self
    else
      .ok { self with solutions := self.solutions ++ [node] }
  | .feature =>
    if self.child_features.any (fun n => n.node_id == node.node_id) then
      .ok self
    else
      .ok { self with child_features := self.child_features ++ [node] }
  | .problem => .error (.valueError "PROBLEM may not point at PROBLEM")
  | .success => .error (.valueError "SUCCESS must be pointed at by SOLUTION")
  | .failure => .error (.valueError "FAILURE edges are taken at run time only")
  | .origin => .error (.valueError "ORIGIN may only be a source")

/-- `Node.add_node` of the base class (`node.py`): the body is `pass` — no
check, no mutation, no exception.  `SolutionNode`, `SuccessNode` and
`FailureNode` do not override it. -/
def baseAddNode (self : Links) (_node : CNode) : Except PyExn Links :=
  .ok self

/-- Dispatch of an `add_node` call by the receiver's kind, exactly as
Python method resolution does it. -/
def addNodeDispatch (src : NodeType) (self : Links) (node : CNode)
    (link_mode : Option String) : Except PyExn Links :=
  match src with
  | .origin => originAddNode self node
  | .feature => featureAddNode self node link_mode
  | .problem => problemAddNode self node
  | _ => baseAddNode self node

/-- The allowed source→target table of the spec (§3 edge rules):
Origin→Feature, Feature→Problem, Feature→Feature, Problem→Solution,
Problem→Feature, Solution→Success. -/
def allowedPair (src tgt : NodeType) : Bool :=
  (src == .origin && tgt == .feature) ||
  (src == .feature && (tgt == .problem || tgt == .feature)) ||
  (src == .problem && (tgt == .solution || tgt == .feature)) ||
  (src == .solution && tgt == .success)

/-! ## `Engine.step` argument passing (`engine.py`)

`Engine.step` invokes `node.process_next_node(node, new_input)` — two
positional arguments after the bound receiver.  The per-class methods
declare differing numbers of parameters after `self`; a Python call whose
argument count does not match raises `TypeError`. -/

/-- Parameters after `self` of each class's `process_next_node`, read off
the `def` lines of the source:
`OriginNode(self, chat_log)`, `FeatureNode(self, node, chat_log)`,
`ProblemNode(self)`, `SolutionNode(self, chat_log)`,
`SuccessNode(self, chat_log)`, `FailureNode(self, node, input_data)`. -/
def processParamCount : NodeType → Nat
  | .origin => 1
  | .feature => 2
  | .problem => 0
  | .solution => 1
  | .success => 1
  | .failure => 2

/-- Positional arguments `Engine.step` supplies to `process_next_node`
(`res = node.process_next_node(node, new_input)`). -/
def stepArgCount : Nat := 2

/-- Result of a Python method call: the value, or the `TypeError` raised
when the supplied argument count does not match the signature. -/
inductive PyCall (α : Type)
  | ok (a : α)
  | typeError
  deriving DecidableEq, Repr

/-- The method invocation performed by `Engine.step` on the current node:
run the behavior only when the argument counts agree. -/
def stepInvoke {α : Type} (k : NodeType) (run : Unit → α) : PyCall α :=
  if processParamCount k = stepArgCount then .ok (run ()) else .typeError

/-! ## Training checkpoints (`train.py`, `train_from_file`) -/

/-- `checkpoint = max(1, math.floor(n_blocks * 0.05))`.  For every block
count in the realistic range the binary64 product `n * 0.05` floors to
`n / 20` (the stored double 0.05 exceeds 1/20 by ≈ 2.8e-18, far below the
distance to the next integer), so the floor is embedded as natural
division by 20. -/
def checkpointInterval (nBlocks : Nat) : Nat :=
  max 1 (nBlocks / 20)

/-- The segment indices (1-based, `enumerate(blocks, 1)`) at which
`train_from_file` calls `engine.save_nodes`:
`if i % checkpoint == 0 or i == n_blocks`. -/
def saveIndices (nBlocks : Nat) : List Nat :=
  (List.range' 1 nBlocks).filter
    (fun i => i % checkpointInterval nBlocks == 0 || i == nBlocks)

/-- Modelled from the spec wording of the claim: saving "after every
⌈0.05·n⌉ segments processed, and once more after the final segment".
Stated only to be compared against `saveIndices`. -/
def claimedSaveIndices (nBlocks : Nat) : List Nat :=
  (List.range' 1 nBlocks).filter
    (fun i => i % ((nBlocks + 19) / 20) == 0 || i == nBlocks)

/-! ## Graph and codec (`engine.py`: `save_nodes` / `load_nodes`)

The in-memory graph follows the arena representation the spec's design
notes prescribe: nodes are stored under their ids and refer to each other
by id; `none` stands for a Python `None` reference.  Session-local flags
(`visited`, `resolved`, `confirmed_positive`, `counts`) are never
serialized and are reset by the loader's constructors, so they are not
part of the persistent node state modelled here. -/

/-- `OriginNode`: ordered child features. -/
structure OriginRec where
  child_features : List String
  deriving DecidableEq, Repr

/-- `FeatureNode`: `expected_state`, parent reference, `(problem, link_mode)`
pairs and child features. -/
structure FeatureRec where
  expected_state : Bool
  parent_node : Option String
  child_problems : List (String × String)
  child_features : List String
  deriving DecidableEq, Repr

/-- `ProblemNode`: parent feature, `mode`, solutions and child features. -/
structure ProblemRec where
  parent_feature : Option String
  mode : String
  solutions : List String
  child_features : List String
  deriving DecidableEq, Repr

/-- `SolutionNode`: parent problem and success-node reference. -/
structure SolutionRec where
  parent_problem : Option String
  success_node : Option String
  deriving DecidableEq, Repr

/-- Kind-specific payload of a node. -/
inductive NodeData
  | origin (r : OriginRec)
  | feature (r : FeatureRec)
  | problem (r : ProblemRec)
  | solution (r : SolutionRec)
  | success
  | failure
  deriving DecidableEq, Repr

/-- A node of the in-memory graph. -/
structure GNode where
  description : String
  data : NodeData
  deriving DecidableEq, Repr

/-- The engine's node registry plus the three distinguished ids (Python
dicts preserve insertion order, hence the association list). -/
structure Graph where
  root_id : String
  success_id : String
  failure_id : String
  nodes : List (String × GNode)
  deriving DecidableEq, Repr

/-- One record of the saved JSON document.  `save_nodes` always writes
`type` and `description`; the other keys appear per kind and the loader
reads them with `meta.get(..., default)`, so absent and default-valued
keys are indistinguishable. -/
structure Meta where
  type : String
  description : String
  expected_state : Option Bool := none
  parent_node : Option String := none
  child_problems : List (String × String) := []
  child_features : List String := []
  solutions : List String := []
  parent_feature : Option String := none
  parent_problem : Option String := none
  success_node : Option String := none
  deriving DecidableEq, Repr

/-- The saved document: top-level ids plus the node table. -/
structure Doc where
  root_id : String
  success_id : String
  failure_id : String
  nodes : List (String × Meta)
  deriving DecidableEq, Repr

/-- The per-node record written by `Engine.save_nodes`.  Note that a
problem's own `mode` is not written, and a feature's `child_problems` are
written with `str(link_mode).lower()`. -/
def saveMeta (n : GNode) : Meta :=
  match n.data with
  | .origin r =>
    { type := "Origin", description := n.description,
      child_features := r.child_features }
  | .feature r =>
    { type := "Feature", description := n.description,
      expected_state := some r.expected_state,
      parent_node := r.parent_node,
      child_problems := r.child_problems.map (fun pl => (pl.1, pyLower pl.2)),
      child_features := r.child_features }
  | .problem r =>
    { type := "Problem", description := n.description,
      parent_feature := r.parent_feature,
      solutions := r.solutions,
      child_features := r.child_features }
  | .solution r =>
    { type := "Solution", description := n.description,
      parent_problem := r.parent_problem,
      success_node := r.success_node }
  | .success => { type := "Success", description := n.description }
  | .failure => { type := "Failure", description := n.description }

/-- `Engine.save_nodes`: dump the registry in iteration order. -/
def saveNodes (g : Graph) : Doc :=
  { root_id := g.root_id, success_id := g.success_id, failure_id := g.failure_id,
    nodes := g.nodes.map (fun p => (p.1, saveMeta p.2)) }

/-- First-match lookup in the registry (Python dict access by key). -/
def findNode (ns : List (String × GNode)) (i : String) : Option GNode :=
  (ns.find? (fun p => p.1 == i)).map (fun p => p.2)

/-- Key-membership in the registry. -/
def containsNode (ns : List (String × GNode)) (i : String) : Bool :=
  ns.any (fun p => p.1 == i)

/-- Replace the node stored under a key (a no-op for an absent key);
models mutating the object the dict holds under that key. -/
def setNode (ns : List (String × GNode)) (i : String) (n : GNode) :
    List (String × GNode) :=
  ns.map (fun p => if p.1 == i then (p.1, n) else p)

/-- The pass-2 mutation `child.parent_node = parent_object`.  Only feature
records persist a `parent_node` key in the document, so the write is
observable only on features; on any other kind `setattr` stores an
attribute that `save_nodes` never reads. -/
def setParentNode (ns : List (String × GNode)) (cid pid : String) :
    List (String × GNode) :=
  match findNode ns cid with
  | some ⟨d, .feature r⟩ =>
    setNode ns cid ⟨d, .feature { r with parent_node := some pid }⟩
  | _ => ns

/-- The pass-2 mutation `problem.parent_feature = parent_object`
(observable only on problem records). -/
def setParentFeature (ns : List (String × GNode)) (cid pid : String) :
    List (String × GNode) :=
  match findNode ns cid with
  | some ⟨d, .problem r⟩ =>
    setNode ns cid ⟨d, .problem { r with parent_feature := some pid }⟩
  | _ => ns

/-- The pass-2 mutation `solution.parent_problem = parent_object`
(observable only on solution records). -/
def setParentProblem (ns : List (String × GNode)) (cid pid : String) :
    List (String × GNode) :=
  match findNode ns cid with
  | some ⟨d, .solution r⟩ =>
    setNode ns cid ⟨d, .solution { r with parent_problem := some pid }⟩
  | _ => ns

/-- The exceptions `Engine.load_nodes` can raise: a bare `KeyError` from a
`temp[x]` lookup, or the `ValueError` from an unknown `type` string.  No
`CorruptGraph` error kind exists anywhere in the source. -/
inductive LoadErr
  | keyError (id : String)
  | valueError (msg : String)
  deriving DecidableEq, Repr

/-- Pass 1 of the loader: construct a node with default (empty/None) links
from a record; an unknown `type` raises `ValueError`.  A feature's
`expected_state` is restored here (`bool(meta.get("expected_state",
True))`); a problem's `mode` is hard-wired to `"soft"`. -/
def defaultNode (m : Meta) : Except LoadErr GNode :=
  match m.type with
  | "Origin" => .ok ⟨m.description, .origin ⟨[]⟩⟩
  | "Feature" => .ok ⟨m.description, .feature ⟨m.expected_state.getD true, none, [], []⟩⟩
  | "Problem" => .ok ⟨m.description, .problem ⟨none, "soft", [], []⟩⟩
  | "Solution" => .ok ⟨m.description, .solution ⟨none, none⟩⟩
  | "Success" => .ok ⟨m.description, .success⟩
  | "Failure" => .ok ⟨m.description, .failure⟩
  | other => .error (.valueError other)

/-- The pass-1 loop over `nodes_meta.items()`. -/
def loadPass1 : List (String × Meta) → Except LoadErr (List (String × GNode))
  | [] => .ok []
  | (nid, m) :: rest => do
    let n ← defaultNode m
    let ns ← loadPass1 rest
    .ok ((nid, n) :: ns)

/-- `[temp[x] for x in ids]`: `KeyError` at the first missing id. -/
def wireIds (ns : List (String × GNode)) : List String → Except LoadErr (List String)
  | [] => .ok []
  | x :: rest =>
    if containsNode ns x then do
      let r ← wireIds ns rest
      .ok (x :: r)
    else .error (.keyError x)

/-- `temp.get(pid) if pid else None`: `None` and the empty string are
falsy, and `dict.get` returns `None` for a missing key — no exception. -/
def tempGet (ns : List (String × GNode)) : Option String → Option String
  | none => none
  | some p => if p = "" then none else if containsNode ns p then some p else none

/-- The `for pid, lm in meta.get("child_problems", [])` loop: each problem
is looked up (`temp[pid]`, hence `KeyError` on a missing id) and the stored
mode string is lowercased again. -/
def wirePairs (ns : List (String × GNode)) :
    List (String × String) → Except LoadErr (List (String × String))
  | [] => .ok []
  | (pid, lm) :: rest =>
    if containsNode ns pid then do
      let r ← wirePairs ns rest
      .ok ((pid, pyLower lm) :: r)
    else .error (.keyError pid)

/-- Pass 2 of the loader for a single record: re-wire the node stored under
`nid` from its meta, then write the back-pointers of its children exactly
as the source does (`c.parent_node = n`, `p.parent_feature = n`,
`s.parent_problem = n`).  Success and Failure records have no pass-2
branch. -/
def wireNode (acc : List (String × GNode)) (nid : String) (m : Meta) :
    Except LoadErr (List (String × GNode)) :=
  match findNode acc nid with
  | none => .error (.keyError nid)
  | some n =>
    match n.data with
    | .origin _ => do
      let cf ← wireIds acc m.child_features
      let acc₁ := setNode acc nid ⟨n.description, .origin ⟨cf⟩⟩
      .ok (cf.foldl (fun a c => setParentNode a c nid) acc₁)
    | .feature r => do
      let pn := tempGet acc m.parent_node
      let cf ← wireIds acc m.child_features
      let cps ← wirePairs acc m.child_problems
      let acc₁ := setNode acc nid
        ⟨n.description, .feature { r with parent_node := pn, child_features := cf,
                                          child_problems := cps }⟩
      let acc₂ := cf.foldl (fun a c => setParentNode a c nid) acc₁
      .ok (cps.foldl (fun a pl => setParentFeature a pl.1 nid) acc₂)
    | .problem r => do
      let pf := tempGet acc m.parent_feature
      let cf ← wireIds acc m.child_features
      let sols ← wireIds acc m.solutions
      let acc₁ := setNode acc nid
        ⟨n.description, .problem { r with parent_feature := pf, child_features := cf,
                                          solutions := sols }⟩
      let acc₂ := cf.foldl (fun a c => setParentNode a c nid) acc₁
      .ok (sols.foldl (fun a s => setParentProblem a s nid) acc₂)
    | .solution r =>
      .ok (setNode acc nid
        ⟨n.description, .solution { r with parent_problem := tempGet acc m.parent_problem,
                                           success_node := tempGet acc m.success_node }⟩)
    | .success => .ok acc
    | .failure => .ok acc

/-- The pass-2 loop over `nodes_meta.items()`. -/
def loadPass2 (metas : List (String × Meta)) (acc : List (String × GNode)) :
    Except LoadErr (List (String × GNode)) :=
  match metas with
  | [] => .ok acc
  | (nid, m) :: rest =>
    match wireNode acc nid m with
    | .ok acc' => loadPass2 rest acc'
    | .error e => .error e

/-- `Engine.load_nodes`: pass 1, the three `temp[...]` lookups of root,
success and failure, pass 2, then the engine whose registry is exactly
the re-wired node table. -/
def loadNodes (doc : Doc) : Except LoadErr Graph :=
  match loadPass1 doc.nodes with
  | .error e => .error e
  | .ok temp =>
    if containsNode temp doc.root_id then
      if containsNode temp doc.success_id then
        if containsNode temp doc.failure_id then
          match loadPass2 doc.nodes temp with
          | .error e => .error e
          | .ok final =>
            .ok { root_id := doc.root_id, success_id := doc.success_id,
                  failure_id := doc.failure_id, nodes := final }
        else .error (.keyError doc.failure_id)
      else .error (.keyError doc.success_id)
    else .error (.keyError doc.root_id)

/-- What the loader does to a node that survives a round trip untouched
except for a problem's `mode`, which is hard-wired to `"soft"`. -/
def GNode.loadMode : GNode → GNode
  | ⟨d, .problem r⟩ => ⟨d, .problem { r with mode := "soft" }⟩
  | n => n

/-! ### Well-formedness of an in-memory graph

These are the invariants §3 of the spec demands of every graph produced by
training or loading: unique non-empty ids, distinguished ids present,
every reference resolvable, children kind-correct, back-pointers
consistent, and stored link modes lowercase (`add_node` only ever stores
`"hard"`/`"soft"`). -/

/-- A parent/target reference is `None` or a present, non-empty id. -/
def refOK (ns : List (String × GNode)) : Option String → Bool
  | none => true
  | some p => p != "" && containsNode ns p

/-- A child-feature entry: a feature whose back-pointer names the parent. -/
def childFeatOK (ns : List (String × GNode)) (parent c : String) : Bool :=
  match findNode ns c with
  | some ⟨_, .feature r⟩ => r.parent_node == some parent
  | _ => false

/-- A child-problem entry: a problem whose back-pointer names the parent,
with a lowercase stored link mode. -/
def childProbOK (ns : List (String × GNode)) (parent : String)
    (pl : String × String) : Bool :=
  match findNode ns pl.1 with
  | some ⟨_, .problem r⟩ => r.parent_feature == some parent && pyLower pl.2 == pl.2
  | _ => false

/-- A solution entry: a solution whose back-pointer names the parent. -/
def childSolOK (ns : List (String × GNode)) (parent s : String) : Bool :=
  match findNode ns s with
  | some ⟨_, .solution r⟩ => r.parent_problem == some parent
  | _ => false

/-- Per-node invariant. -/
def nodeWF (ns : List (String × GNode)) (nid : String) (n : GNode) : Bool :=
  match n.data with
  | .origin r => r.child_features.all (childFeatOK ns nid)
  | .feature r =>
    refOK ns r.parent_node &&
    r.child_features.all (childFeatOK ns nid) &&
    r.child_problems.all (childProbOK ns nid)
  | .problem r =>
    refOK ns r.parent_feature &&
    r.child_features.all (childFeatOK ns nid) &&
    r.solutions.all (childSolOK ns nid)
  | .solution r => refOK ns r.parent_problem && refOK ns r.success_node
  | .success => true
  | .failure => true

/-- Graph invariant: key uniqueness, non-empty ids, the three distinguished
ids present, and every node's local invariant. -/
def Graph.wf (g : Graph) : Bool :=
  decide (g.nodes.map Prod.fst).Nodup &&
  g.nodes.all (fun p => p.1 != "") &&
  containsNode g.nodes g.root_id &&
  containsNode g.nodes g.success_id &&
  containsNode g.nodes g.failure_id &&
  g.nodes.all (fun p => nodeWF g.nodes p.1 p.2)

/-- The ids a record's pass-2 wiring looks up with `temp[x]` (child lists
only; parent back-pointers and the success pointer go through
`dict.get`). -/
def metaChildRefs (m : Meta) : List String :=
  match m.type with
  | "Origin" => m.child_features
  | "Feature" => m.child_features ++ m.child_problems.map Prod.fst
  | "Problem" => m.child_features ++ m.solutions
  | _ => []

/-- The ids a record's pass-2 wiring looks up, keyed by the kind of the
node object pass 2 dispatches on. -/
def metaRefsFor : NodeType → Meta → List String
  | .origin, m => m.child_features
  | .feature, m => m.child_features ++ m.child_problems.map Prod.fst
  | .problem, m => m.child_features ++ m.solutions
  | _, _ => []

/-! ## Concrete states used by witnesses and counterexamples -/

/-- A feature with one unvisited child problem and one unvisited child
feature. -/
def c1FeatureEx : FeatureState :=
  { node_id := "F1", expected_state := true, parent_id := "ORIGIN",
    parentIsOrigin := true,
    child_problems := [(⟨"P1", false, "soft"⟩, "hard")],
    child_features := [⟨"F2", false⟩],
    visited := true, confirmed_positive := true }

/-- An exhausted, already-visited hard problem. -/
def c2ProblemEx : ProblemState :=
  { node_id := "P1", mode := "hard", parent_feature_id := "F1",
    parent_feature_resolved := false,
    solutions := [⟨"S1", true⟩], child_features := [],
    visited := true, resolved := false }

/-- A fresh hard problem with one unvisited solution. -/
def c2FreshProblemEx : ProblemState :=
  { node_id := "P1", mode := "hard", parent_feature_id := "F1",
    parent_feature_resolved := false,
    solutions := [⟨"S1", false⟩], child_features := [],
    visited := false, resolved := false }

/-- A leaf feature under the Origin, not yet visited. -/
def c3FeatureEx : FeatureState :=
  { node_id := "F1", expected_state := true, parent_id := "ORIGIN",
    parentIsOrigin := true, child_problems := [], child_features := [],
    visited := false, confirmed_positive := false }

/-- Origin children: one visited, two unvisited. -/
def c10ChildrenEx : List FNode := [⟨"F1", true⟩, ⟨"F2", false⟩, ⟨"F3", false⟩]

/-! ## Helper notions for the codec proofs -/

/-- The constructor tag of a node's payload. -/
def dataCtor : NodeData → NodeType
  | .origin _ => .origin
  | .feature _ => .feature
  | .problem _ => .problem
  | .solution _ => .solution
  | .success => .success
  | .failure => .failure

/-- Whether a record's `type` string names the payload's kind. -/
def typeMatches (t : String) (d : NodeData) : Bool :=
  t == (dataCtor d).value

/-- Key membership in a document's node table. -/
def docContains (doc : Doc) (i : String) : Bool :=
  doc.nodes.any (fun p => p.1 == i)

/-- The effect of the pass-2 write `child.parent_node = parent` on one
node value. -/
def applyParentNode (pid : String) : GNode → GNode
  | ⟨d, .feature r⟩ => ⟨d, .feature { r with parent_node := some pid }⟩
  | n => n

/-- The effect of the pass-2 write `problem.parent_feature = parent`. -/
def applyParentFeature (pid : String) : GNode → GNode
  | ⟨d, .problem r⟩ => ⟨d, .problem { r with parent_feature := some pid }⟩
  | n => n

/-- The effect of the pass-2 write `solution.parent_problem = parent`. -/
def applyParentProblem (pid : String) : GNode → GNode
  | ⟨d, .solution r⟩ => ⟨d, .solution { r with parent_problem := some pid }⟩
  | n => n

/-- The node that pass 1 constructs for a saved node: links cleared,
`expected_state` restored, a problem's `mode` hard-wired to `"soft"`. -/
def defaultG (n : GNode) : GNode :=
  match n.data with
  | .origin _ => ⟨n.description, .origin ⟨[]⟩⟩
  | .feature r => ⟨n.description, .feature ⟨r.expected_state, none, [], []⟩⟩
  | .problem _ => ⟨n.description, .problem ⟨none, "soft", [], []⟩⟩
  | .solution _ => ⟨n.description, .solution ⟨none, none⟩⟩
  | .success => n
  | .failure => n

/-- The states a not-yet-rewired node can be in during pass 2: its pass-1
default, except that a parent that was already processed may have written
the (consistent) back-pointer early. -/
def preOK (orig cur : GNode) : Prop :=
  match orig.data with
  | .feature r => ∃ pn, (pn = none ∨ pn = r.parent_node) ∧
      cur = ⟨orig.description, .feature ⟨r.expected_state, pn, [], []⟩⟩
  | .problem r => ∃ pf, (pf = none ∨ pf = r.parent_feature) ∧
      cur = ⟨orig.description, .problem ⟨pf, "soft", [], []⟩⟩
  | .solution r => ∃ pp, (pp = none ∨ pp = r.parent_problem) ∧
      cur = ⟨orig.description, .solution ⟨pp, none⟩⟩
  | _ => cur = defaultG orig

/-- A well-formed four-node graph whose problem is `hard`. -/
def c6GraphEx : Graph :=
  { root_id := "ORIGIN", success_id := "SUCCESS", failure_id := "FAILURE",
    nodes := [
      ("ORIGIN", ⟨"root", .origin ⟨["F1"]⟩⟩),
      ("F1", ⟨"feat", .feature ⟨true, some "ORIGIN", [("P1", "hard")], []⟩⟩),
      ("P1", ⟨"prob", .problem ⟨some "F1", "hard", ["S1"], []⟩⟩),
      ("S1", ⟨"sol", .solution ⟨some "P1", some "SUCCESS"⟩⟩),
      ("SUCCESS", ⟨"done", .success⟩),
      ("FAILURE", ⟨"fail", .failure⟩)] }

/-- What loading the saved form of `c6GraphEx` produces: the same graph
except that `P1`'s own `mode` has become `"soft"`. -/
def c6LoadedEx : Graph :=
  { root_id := "ORIGIN", success_id := "SUCCESS", failure_id := "FAILURE",
    nodes := [
      ("ORIGIN", ⟨"root", .origin ⟨["F1"]⟩⟩),
      ("F1", ⟨"feat", .feature ⟨true, some "ORIGIN", [("P1", "hard")], []⟩⟩),
      ("P1", ⟨"prob", .problem ⟨some "F1", "soft", ["S1"], []⟩⟩),
      ("S1", ⟨"sol", .solution ⟨some "P1", some "SUCCESS"⟩⟩),
      ("SUCCESS", ⟨"done", .success⟩),
      ("FAILURE", ⟨"fail", .failure⟩)] }

/-- A document whose solution record points at ids absent from the node
table through `parent_problem` and `success_node`. -/
def c7DocEx : Doc :=
  { root_id := "ORIGIN", success_id := "SUCCESS", failure_id := "FAILURE",
    nodes := [
      ("ORIGIN", { type := "Origin", description := "root" }),
      ("SUCCESS", { type := "Success", description := "done" }),
      ("FAILURE", { type := "Failure", description := "fail" }),
      ("S1", { type := "Solution", description := "sol",
               parent_problem := some "GHOST_P", success_node := some "GHOST_S" })] }

/-- The graph the loader happily produces from `c7DocEx`: the dangling
references are silently replaced by `None`. -/
def c7LoadedEx : Graph :=
  { root_id := "ORIGIN", success_id := "SUCCESS", failure_id := "FAILURE",
    nodes := [
      ("ORIGIN", ⟨"root", .origin ⟨[]⟩⟩),
      ("SUCCESS", ⟨"done", .success⟩),
      ("FAILURE", ⟨"fail", .failure⟩),
      ("S1", ⟨"sol", .solution ⟨none, none⟩⟩)] }

end FE

namespace FE

/-! ## Shared list lemmas -/

/-- A list with an element failing `p` splits at the first such element. -/
theorem exists_first_false {α : Type} (p : α → Bool) :
    ∀ {l : List α}, (∃ x ∈ l, p x = false) →
      ∃ pre a post, l = pre ++ a :: post ∧ (∀ x ∈ pre, p x = true) ∧ p a = false := by
  intro l h
  induction l with
  | nil => simp at h
  | cons b bs ih =>
    by_cases hb : p b = false
    · exact ⟨[], b, bs, rfl, by simp, hb⟩
    · have hb' : p b = true := by revert hb; cases p b <;> simp
      obtain ⟨x, hx, hpx⟩ := h
      rcases List.mem_cons.mp hx with rfl | hx'
      · exact absurd hpx hb
      · obtain ⟨pre, a, post, heq, hpre, hpa⟩ := ih ⟨x, hx', hpx⟩
        refine ⟨b :: pre, a, post, by simp [heq], ?_, hpa⟩
        intro y hy
        rcases List.mem_cons.mp hy with rfl | hy'
        · exact hb'
        · exact hpre y hy'

/-- `find?` returns the head of the split at the first satisfying element. -/
theorem find?_split {α : Type} (p : α → Bool) (pre : List α) (a : α) (post : List α)
    (hpre : ∀ x ∈ pre, p x = false) (ha : p a = true) :
    (pre ++ a :: post).find? p = some a := by
  induction pre with
  | nil => simp [List.find?, ha]
  | cons b bs ih =>
    have hb : p b = false := hpre b (List.mem_cons_self _ _)
    simp only [List.cons_append, List.find?, hb]
    exact ih fun x hx => hpre x (List.mem_cons_of_mem _ hx)

/-! ## Behavior lemmas -/

/-- The problems loop finds nothing when every child problem is visited. -/
theorem descendProblems_all_visited :
    ∀ {cps : List (PNode × String)}, (∀ pl ∈ cps, pl.1.visited = true) →
      descendProblems cps = none := by
  intro cps h
  induction cps with
  | nil => rfl
  | cons hd tl ih =>
    obtain ⟨p, lm⟩ := hd
    have hp : p.visited = true := h (p, lm) (List.mem_cons_self _ _)
    have ih' := ih fun pl hm => h pl (List.mem_cons_of_mem _ hm)
    simp [descendProblems, hp, ih']

/-- The problems loop stops at the first unvisited problem, rewriting its
`mode` from the stored link mode. -/
theorem descendProblems_split (pre : List (PNode × String)) (p : PNode) (lm : String)
    (post : List (PNode × String))
    (hpre : ∀ pl ∈ pre, pl.1.visited = true) (hp : p.visited = false) :
    descendProblems (pre ++ (p, lm) :: post) =
      some ({ p with mode := pyLower lm },
            pre ++ ({ p with mode := pyLower lm }, lm) :: post) := by
  induction pre with
  | nil => simp [descendProblems, hp]
  | cons hd tl ih =>
    obtain ⟨q, l⟩ := hd
    have hq : q.visited = true := hpre (q, l) (List.mem_cons_self _ _)
    have ih' := ih fun pl hm => hpre pl (List.mem_cons_of_mem _ hm)
    simp [descendProblems, hq, ih']

/-- `getD` within bounds picks a list element. -/
theorem getD_mem_of_lt {α : Type} (l : List α) (n : Nat) (d : α) (h : n < l.length) :
    l.getD n d ∈ l := by
  rw [List.getD_eq_getElem?_getD, List.getElem?_eq_getElem h]
  exact List.getElem_mem h

/-- When no unvisited child feature exists the LLM selection is skipped. -/
theorem selectNextFeature_eq_none (cfs : List FNode) (sel : SelOutcome)
    (h : cfs.filter (fun f => !f.visited) = []) :
    selectNextFeature cfs sel = none := by
  simp only [selectNextFeature, h]

/-- The selected feature always comes from the unvisited candidates. -/
theorem selectNextFeature_mem (cfs : List FNode) (sel : SelOutcome)
    (c : FNode) (cs : List FNode)
    (h : cfs.filter (fun f => !f.visited) = c :: cs) :
    ∃ tf ∈ c :: cs, selectNextFeature cfs sel = some tf := by
  cases cs with
  | nil => exact ⟨c, List.mem_cons_self _ _, by simp only [selectNextFeature, h]⟩
  | cons d ds =>
    rcases sel with idx | _
    · rcases idx with _ | i
      · exact ⟨c, List.mem_cons_self _ _, by simp only [selectNextFeature, h]⟩
      · by_cases hi : 0 ≤ i ∧ i.toNat < (c :: d :: ds).length
        · refine ⟨(c :: d :: ds).getD i.toNat c, getD_mem_of_lt _ _ _ hi.2, ?_⟩
          simp only [selectNextFeature, h]
          rw [if_pos hi]
        · refine ⟨c, List.mem_cons_self _ _, ?_⟩
          simp only [selectNextFeature, h]
          rw [if_neg hi]
    · exact ⟨c, List.mem_cons_self _ _, by simp only [selectNextFeature, h]⟩

/-- Same for the Origin's selector. -/
theorem originSelectNextFeature_eq_none (cfs : List FNode) (pick : SelOutcome)
    (h : cfs.filter (fun f => !f.visited) = []) :
    originSelectNextFeature cfs pick = none := by
  simp only [originSelectNextFeature, h]

/-- The Origin's selected feature always comes from the unvisited
candidates. -/
theorem originSelectNextFeature_mem (cfs : List FNode) (pick : SelOutcome)
    (c : FNode) (cs : List FNode)
    (h : cfs.filter (fun f => !f.visited) = c :: cs) :
    ∃ tf ∈ c :: cs, originSelectNextFeature cfs pick = some tf := by
  cases cs with
  | nil => exact ⟨c, List.mem_cons_self _ _, by simp only [originSelectNextFeature, h]⟩
  | cons d ds =>
    rcases pick with idx | _
    · rcases idx with _ | i
      · exact ⟨c, List.mem_cons_self _ _, by simp only [originSelectNextFeature, h]⟩
      · by_cases hi : 0 ≤ i ∧ i.toNat < (c :: d :: ds).length
        · refine ⟨(c :: d :: ds).getD i.toNat c, getD_mem_of_lt _ _ _ hi.2, ?_⟩
          simp only [originSelectNextFeature, h]
          rw [if_pos hi]
        · refine ⟨c, List.mem_cons_self _ _, ?_⟩
          simp only [originSelectNextFeature, h]
          rw [if_neg hi]
    · exact ⟨c, List.mem_cons_self _ _, by simp only [originSelectNextFeature, h]⟩

/-- On a failed or vacuous LLM pick the Origin's selector falls back to
the first unvisited candidate. -/
theorem originSelectNextFeature_fallback (cfs : List FNode) (pick : SelOutcome)
    (c : FNode) (cs : List FNode)
    (h : cfs.filter (fun f => !f.visited) = c :: cs)
    (hp : pick = .exn ∨ pick = .ok none ∨
          ∃ i, pick = .ok (some i) ∧ ¬(0 ≤ i ∧ i.toNat < (c :: cs).length)) :
    originSelectNextFeature cfs pick = some c := by
  cases cs with
  | nil => simp only [originSelectNextFeature, h]
  | cons d ds =>
    rcases hp with rfl | rfl | ⟨i, rfl, hi⟩
    · simp only [originSelectNextFeature, h]
    · simp only [originSelectNextFeature, h]
    · simp only [originSelectNextFeature, h]
      rw [if_neg hi]

/-- With verdicts that never resolve, every round of the callback loop
answers `"no"`. -/
theorem callbackGo_none (verdict : Nat → Option Bool) (h : ∀ t, verdict t = none) :
    ∀ (n turn : Nat), callbackGo verdict turn n = "no" := by
  intro n
  induction n with
  | zero => intro turn; simp [callbackGo, h turn]
  | succ k ih => intro turn; simp [callbackGo, h turn, ih]

/-! ## Claim C1 -/

/-- C1 counterexample: on a feature with an unvisited child feature `F2`
and an unvisited child problem `P1`, the descend step goes to the problem
`P1` even though an unvisited child feature remains — the claim's order
(child features first, problems only afterwards) is the reverse of the
code's. -/
theorem c1_counterexample :
    (c1FeatureEx.child_features.any fun x => !x.visited) = true ∧
    (featureNextChild c1FeatureEx (.ok none)).1 = .node "P1" ∧
    (c1FeatureEx.child_features.all fun x => x.node_id != "P1") = true := by
  decide

/-- C1 (amended): `_next_child_node` first takes the first unvisited child
problem in insertion order, copying the stored `link_mode` into that
problem's `mode` field; only when every child problem is visited does it
choose among the unvisited child features via the LLM pick (falling back
to the first unvisited); when nothing remains it returns `"FAILURE"` if
the parent is the Origin and the parent node otherwise. -/
theorem c1_descend_amended (f : FeatureState) (sel : SelOutcome) :
    (∀ pre p lm post,
        f.child_problems = pre ++ (p, lm) :: post →
        (∀ pl ∈ pre, pl.1.visited = true) → p.visited = false →
        featureNextChild f sel =
          (.node p.node_id,
           { f with child_problems :=
               pre ++ ({ p with mode := pyLower lm }, lm) :: post })) ∧
    ((∀ pl ∈ f.child_problems, pl.1.visited = true) →
      (∀ c cs, f.child_features.filter (fun x => !x.visited) = c :: cs →
        ∃ tf ∈ c :: cs, featureNextChild f sel = (.node tf.node_id, f)) ∧
      (f.child_features.filter (fun x => !x.visited) = [] →
        featureNextChild f sel =
          if f.parentIsOrigin then (.failureSentinel, f) else (.node f.parent_id, f))) := by
  constructor
  · intro pre p lm post heq hpre hp
    unfold featureNextChild
    rw [heq, descendProblems_split pre p lm post hpre hp]
  · intro hall
    have hnone : descendProblems f.child_problems = none := descendProblems_all_visited hall
    constructor
    · intro c cs hu
      obtain ⟨tf, htf, hsel⟩ := selectNextFeature_mem f.child_features sel c cs hu
      refine ⟨tf, htf, ?_⟩
      unfold featureNextChild
      rw [hnone, hsel]
    · intro hu
      have hsel := selectNextFeature_eq_none f.child_features sel hu
      unfold featureNextChild
      rw [hnone, hsel]

/-- C1 witness: the amended statement evaluated on `c1FeatureEx`. -/
theorem c1_descend_witness :
    featureNextChild c1FeatureEx (.ok none) =
      (.node "P1",
       { c1FeatureEx with child_problems := [(⟨"P1", false, "hard"⟩, "hard")] }) := by
  have hpre : ∀ pl ∈ ([] : List (PNode × String)), pl.1.visited = true := by simp
  exact (c1_descend_amended c1FeatureEx (.ok none)).1 [] ⟨"P1", false, "soft"⟩ "hard" []
    rfl hpre rfl

/-! ## Claim C2 -/

/-- C2 counterexample: an already-visited hard problem with no unvisited
solution and no unvisited child feature returns its parent feature instead
of transitioning to Failure when the "has the parent feature disappeared?"
interaction answers yes. -/
theorem c2_counterexample :
    c2ProblemEx.mode = "hard" ∧ c2ProblemEx.visited = true ∧
    (∀ s ∈ c2ProblemEx.solutions, s.visited = true) ∧
    c2ProblemEx.child_features = [] ∧
    (problemProcess c2ProblemEx "yes").1 = .node "F1" ∧
    (problemProcess c2ProblemEx "yes").1 ≠ .failureSentinel := by
  decide

/-- C2 (amended): unless the problem is already visited with the
parent-feature-disappeared check answering yes (in which case it returns
the parent feature), an exhausted problem transitions to Failure when its
mode is `"hard"` and to the parent feature otherwise, and the first
unvisited solution in insertion order is tried before any unvisited child
feature. -/
theorem c2_problem_amended (pr : ProblemState) (reply : String)
    (h : (pr.visited && checkProblemResolved pr reply) = false) :
    ((∀ s ∈ pr.solutions, s.visited = true) →
      (∀ x ∈ pr.child_features, x.visited = true) →
      ((pr.mode = "hard" → (problemProcess pr reply).1 = .failureSentinel) ∧
       (pr.mode ≠ "hard" → (problemProcess pr reply).1 = .node pr.parent_feature_id))) ∧
    (∀ pre s post, pr.solutions = pre ++ s :: post →
      (∀ x ∈ pre, x.visited = true) → s.visited = false →
      (problemProcess pr reply).1 = .node s.node_id) ∧
    ((∀ s ∈ pr.solutions, s.visited = true) →
      ∀ pre x post, pr.child_features = pre ++ x :: post →
      (∀ y ∈ pre, y.visited = true) → x.visited = false →
      (problemProcess pr reply).1 = .node x.node_id) := by
  refine ⟨?_, ?_, ?_⟩
  · intro hsol hfeat
    have hs : pr.solutions.find? (fun s => !s.visited) = none :=
      List.find?_eq_none.mpr fun x hx => by simp [hsol x hx]
    have hf : pr.child_features.find? (fun x => !x.visited) = none :=
      List.find?_eq_none.mpr fun x hx => by simp [hfeat x hx]
    constructor
    · intro hm
      simp [problemProcess, h, hs, hf, problemSelectNextFeature, hm]
    · intro hm
      simp [problemProcess, h, hs, hf, problemSelectNextFeature, hm]
  · intro pre s post heq hpre hvs
    have hs : pr.solutions.find? (fun x => !x.visited) = some s := by
      rw [heq]
      exact find?_split _ pre s post (fun x hx => by simp [hpre x hx]) (by simp [hvs])
    simp [problemProcess, h, hs]
  · intro hsol pre x post heq hpre hvx
    have hs : pr.solutions.find? (fun s => !s.visited) = none :=
      List.find?_eq_none.mpr fun y hy => by simp [hsol y hy]
    have hf : pr.child_features.find? (fun y => !y.visited) = some x := by
      rw [heq]
      exact find?_split _ pre x post (fun y hy => by simp [hpre y hy]) (by simp [hvx])
    simp [problemProcess, h, hs, hf, problemSelectNextFeature]

/-- C2 witness: the amended statement evaluated on a fresh hard problem
with one unvisited solution. -/
theorem c2_problem_witness :
    (problemProcess c2FreshProblemEx "no").1 = .node "S1" :=
  (c2_problem_amended c2FreshProblemEx "no" rfl).2.1 [] ⟨"S1", false⟩ [] rfl
    (by simp) rfl

/-! ## Claim C3 -/

/-- C3 counterexample: on a feature whose yes/no evaluation stays unsure
at every turn (`verdict` constantly `none`), the behavior returns the
parent node `"ORIGIN"`, not the feature `"F1"` itself: the engine does not
stay on the node. -/
theorem c3_counterexample :
    (featureProcess c3FeatureEx (fun _ => none) .exn).1 = .node "ORIGIN" ∧
    c3FeatureEx.node_id = "F1" ∧ c3FeatureEx.parent_id = "ORIGIN" ∧
    RetVal.node "ORIGIN" ≠ RetVal.node "F1" := by
  exact ⟨rfl, rfl, rfl, by decide⟩

/-- C3 (amended): an unsure evaluation is resolved inside the interaction
callback of `produce.make_interaction_callback`, which asks up to
`MAX_FOLLOWUPS` follow-up questions within the same step and finally
treats a still-unsure state as `"no"`; the feature behavior then returns
the parent node (never the feature itself). -/
theorem c3_unsure_amended (f : FeatureState) (verdict : Nat → Option Bool)
    (sel : SelOutcome) (h : ∀ t, verdict t = none) :
    interactionReply verdict = "no" ∧
    featureProcess f verdict sel = (.node f.parent_id, { f with visited := true }) := by
  have hr : interactionReply verdict = "no" := callbackGo_none verdict h MAX_FOLLOWUPS 0
  refine ⟨hr, ?_⟩
  simp [featureProcess, autoJudgeFromChatlog, hr, yesReplies]

/-- C3 witness: the amended statement evaluated on `c3FeatureEx` with a
constantly-unsure verdict. -/
theorem c3_unsure_witness :
    interactionReply (fun _ => none) = "no" ∧
    featureProcess c3FeatureEx (fun _ => none) SelOutcome.exn =
      (.node "ORIGIN", { c3FeatureEx with visited := true }) :=
  c3_unsure_amended c3FeatureEx (fun _ => none) .exn (fun _ => rfl)

/-! ## Claim C4 -/

/-- C4: whenever `FeatureNode.add_node` connects a new problem under a
feature, the stored link mode is `"hard"` exactly when the feature had no
problem children at that moment and `"soft"` otherwise, whatever
`link_mode` the caller supplied, and the problem's own `mode` field is
set to the same string. -/
theorem c4_link_mode_policy (self : Links) (node : CNode) (lm : Option String)
    (hk : node.node_type = .problem)
    (hnew : (self.child_problems.any fun pl => pl.1.node_id == node.node_id) = false) :
    ∃ m, featureAddNode self node lm =
        .ok { self with child_problems :=
                self.child_problems ++ [({ node with mode := m }, m)] } ∧
      ((m = "hard") ↔ self.child_problems = []) ∧ (m = "hard" ∨ m = "soft") := by
  refine ⟨if self.child_problems.length = 0 then "hard" else "soft", ?_, ?_, ?_⟩
  · simp [featureAddNode, hk, hnew]
  · cases hcp : self.child_problems with
    | nil => simp
    | cons a as => simp [hcp]
  · cases self.child_problems <;> simp

/-- C4 witness: the policy evaluated for a first problem child with an
arbitrary caller-supplied link mode. -/
theorem c4_link_mode_witness :
    ∃ m, featureAddNode {} ⟨"P1", NodeType.problem, ""⟩ (some "ignored") =
        .ok { ({} : Links) with child_problems :=
                ({} : Links).child_problems ++
                  [({ (⟨"P1", NodeType.problem, ""⟩ : CNode) with mode := m }, m)] } ∧
      ((m = "hard") ↔ ({} : Links).child_problems = []) ∧ (m = "hard" ∨ m = "soft") :=
  c4_link_mode_policy {} ⟨"P1", NodeType.problem, ""⟩ (some "ignored") rfl rfl

/-! ## Claim C5 -/

/-- C5 counterexample: the pair Solution→Feature is outside the allowed
table, yet the call is not rejected — `SolutionNode` inherits the base
class's `add_node`, whose body is `pass`, so it silently succeeds. -/
theorem c5_counterexample :
    allowedPair .solution .feature = false ∧
    addNodeDispatch .solution {} ⟨"F9", .feature, ""⟩ none = .ok {} := by
  exact ⟨by decide, rfl⟩

/-- C5 (amended): an `add_node` call with a source/target pair outside the
allowed table raises a `ValueError` and leaves the child collections
unchanged when the source is an Origin, Feature or Problem; when the
source is a Solution, Success or Failure the inherited base `add_node` is
a silent no-op — no error, collections unchanged. -/
theorem c5_reject_amended (src : NodeType) (self : Links) (node : CNode)
    (lm : Option String) (h : allowedPair src node.node_type = false) :
    ((src = .origin ∨ src = .feature ∨ src = .problem) →
      ∃ msg, addNodeDispatch src self node lm = .error (.valueError msg)) ∧
    ((src = .solution ∨ src = .success ∨ src = .failure) →
      addNodeDispatch src self node lm = .ok self) := by
  constructor
  · rintro (rfl | rfl | rfl) <;> cases hk : node.node_type <;> simp only [hk] at h <;>
      first
        | exact absurd h (by decide)
        | simp [addNodeDispatch, originAddNode, featureAddNode, problemAddNode, hk]
  · rintro (rfl | rfl | rfl) <;> rfl

/-- C5 witness: the amended statement evaluated for a Problem→Origin
attempt (rejected) and a Success→Feature attempt (silent no-op). -/
theorem c5_reject_witness :
    (∃ msg, addNodeDispatch .problem {} ⟨"O1", NodeType.origin, ""⟩ none =
      .error (.valueError msg)) ∧
    addNodeDispatch .success {} ⟨"F1", NodeType.feature, ""⟩ none = .ok {} :=
  ⟨(c5_reject_amended .problem {} ⟨"O1", NodeType.origin, ""⟩ none rfl).1
      (Or.inr (Or.inr rfl)),
   (c5_reject_amended .success {} ⟨"F1", NodeType.feature, ""⟩ none rfl).2
      (Or.inr (Or.inl rfl))⟩

/-! ## Claim C8 -/

/-- C8 counterexample: with 30 segments the code's checkpoint interval is
`max(1, ⌊0.05·30⌋) = 1`, so it saves after segment 1, while the claimed
interval `⌈0.05·30⌉ = 2` would not save there; the two save schedules
differ. -/
theorem c8_counterexample :
    saveIndices 30 ≠ claimedSaveIndices 30 ∧
    1 ∈ saveIndices 30 ∧ 1 ∉ claimedSaveIndices 30 := by
  decide

/-- C8 (amended): `train_from_file` saves after segment `i` (1-based)
exactly when `i` is a multiple of `max 1 ⌊0.05·n⌋` or `i` is the final
segment. -/
theorem c8_checkpoint_amended (n i : Nat) :
    i ∈ saveIndices n ↔ 1 ≤ i ∧ i ≤ n ∧ (i % max 1 (n / 20) = 0 ∨ i = n) := by
  unfold saveIndices checkpointInterval
  rw [List.mem_filter, List.mem_range'_1]
  simp only [Bool.or_eq_true, beq_iff_eq]
  constructor
  · rintro ⟨⟨h1, h2⟩, h3⟩
    exact ⟨h1, by omega, h3⟩
  · rintro ⟨h1, h2, h3⟩
    exact ⟨⟨h1, by omega⟩, h3⟩

/-! ## Claim C9 -/

/-- C9: `Engine.step` passes two positional arguments to
`process_next_node`, but `OriginNode.process_next_node` declares only one,
so the very first step of every session — which starts at the Origin —
raises `TypeError`; only Feature and Failure nodes have a matching
signature.  No session can reach a terminal through traversal. -/
theorem c9_step_arity_bug :
    stepInvoke .origin (fun _ => originProcess [] SelOutcome.exn) = PyCall.typeError ∧
    (∀ k : NodeType, processParamCount k = stepArgCount ↔ (k = .feature ∨ k = .failure)) := by
  exact ⟨rfl, fun k => by cases k <;> decide⟩

/-! ## Claim C10 -/

/-- C10: an Origin with at least one unvisited child feature always
descends into one of them — never the FAILURE sentinel — and when the LLM
pick raises, returns `None`, or returns an out-of-range index, the first
unvisited child feature is selected. -/
theorem c10_origin_pick (cfs : List FNode) (pick : SelOutcome)
    (c : FNode) (cs : List FNode)
    (h : cfs.filter (fun f => !f.visited) = c :: cs) :
    (∃ tf ∈ c :: cs, originProcess cfs pick = .node tf.node_id) ∧
    originProcess cfs pick ≠ .failureSentinel ∧
    ((pick = .exn ∨ pick = .ok none ∨
        ∃ i, pick = .ok (some i) ∧ ¬(0 ≤ i ∧ i.toNat < (c :: cs).length)) →
      originProcess cfs pick = .node c.node_id) := by
  obtain ⟨tf, htf, hsel⟩ := originSelectNextFeature_mem cfs pick c cs h
  refine ⟨⟨tf, htf, ?_⟩, ?_, ?_⟩
  · unfold originProcess
    rw [hsel]
  · unfold originProcess
    rw [hsel]
    simp
  · intro hp
    unfold originProcess
    rw [originSelectNextFeature_fallback cfs pick c cs h hp]

/-- C10 witness: the statement evaluated on children `F1` (visited), `F2`
and `F3` (unvisited) with an out-of-range LLM pick. -/
theorem c10_origin_witness :
    (∃ tf ∈ [(⟨"F2", false⟩ : FNode), ⟨"F3", false⟩],
        originProcess c10ChildrenEx (.ok (some 5)) = .node tf.node_id) ∧
    originProcess c10ChildrenEx (.ok (some 5)) ≠ .failureSentinel ∧
    originProcess c10ChildrenEx (.ok (some 5)) = .node "F2" := by
  have h := c10_origin_pick c10ChildrenEx (.ok (some 5)) ⟨"F2", false⟩ [⟨"F3", false⟩]
    (by decide)
  exact ⟨h.1, h.2.1, h.2.2 (Or.inr (Or.inr ⟨5, rfl, by decide⟩))⟩

/-! ## Codec lemmas: the registry as a mutable map -/

theorem findNode_cons (p : String × GNode) (rest : List (String × GNode)) (i : String) :
    findNode (p :: rest) i = if p.1 == i then some p.2 else findNode rest i := by
  by_cases h : (p.1 == i) = true <;> simp [findNode, List.find?_cons, h]

theorem containsNode_cons (p : String × GNode) (rest : List (String × GNode)) (i : String) :
    containsNode (p :: rest) i = (p.1 == i || containsNode rest i) := by
  simp [containsNode]

theorem findNode_isSome (ns : List (String × GNode)) (i : String) :
    (findNode ns i).isSome = containsNode ns i := by
  induction ns with
  | nil => rfl
  | cons p rest ih =>
    rw [findNode_cons, containsNode_cons]
    by_cases h : (p.1 == i) = true <;> simp [h, ih]

theorem findNode_map_value (N : List (String × GNode)) (f : GNode → GNode) (i : String) :
    findNode (N.map fun p => (p.1, f p.2)) i = (findNode N i).map f := by
  induction N with
  | nil => rfl
  | cons p rest ih =>
    rw [List.map_cons, findNode_cons, findNode_cons]
    by_cases h : (p.1 == i) = true <;> simp [h, ih]

theorem containsNode_map_value (N : List (String × GNode)) (f : GNode → GNode) (i : String) :
    containsNode (N.map fun p => (p.1, f p.2)) i = containsNode N i := by
  induction N with
  | nil => rfl
  | cons p rest ih =>
    rw [List.map_cons, containsNode_cons, containsNode_cons, ih]

theorem setNode_cons (p : String × GNode) (rest : List (String × GNode))
    (i : String) (x : GNode) :
    setNode (p :: rest) i x = (if p.1 == i then (p.1, x) else p) :: setNode rest i x :=
  rfl

theorem containsNode_setNode (ns : List (String × GNode)) (i : String) (x : GNode)
    (j : String) : containsNode (setNode ns i x) j = containsNode ns j := by
  induction ns with
  | nil => rfl
  | cons p rest ih =>
    rw [setNode_cons, containsNode_cons, containsNode_cons, ih]
    by_cases h : (p.1 == i) = true <;> simp [h]

theorem findNode_setNode_ne (ns : List (String × GNode)) (i : String) (x : GNode)
    (j : String) (hne : j ≠ i) : findNode (setNode ns i x) j = findNode ns j := by
  induction ns with
  | nil => rfl
  | cons p rest ih =>
    rw [setNode_cons, findNode_cons, findNode_cons]
    by_cases h : (p.1 == i) = true
    · have hpi : p.1 = i := eq_of_beq h
      have hj : (p.1 == j) = false := by
        subst hpi; exact beq_eq_false_iff_ne.mpr fun hc => hne hc.symm
      simp [h, hj, ih]
    · by_cases h2 : (p.1 == j) = true <;> simp [h, h2, ih]

theorem findNode_setNode_self (ns : List (String × GNode)) (i : String) (x : GNode) :
    findNode (setNode ns i x) i = if containsNode ns i then some x else none := by
  induction ns with
  | nil => rfl
  | cons p rest ih =>
    rw [setNode_cons, findNode_cons, containsNode_cons]
    by_cases h : (p.1 == i) = true <;> simp [h, ih]

theorem findNode_setParentNode (ns : List (String × GNode)) (c pid j : String) :
    findNode (setParentNode ns c pid) j =
      if j = c then (findNode ns c).map (applyParentNode pid) else findNode ns j := by
  by_cases hj : j = c
  · subst hj
    unfold setParentNode
    rcases h : findNode ns j with _ | ⟨⟨d, data⟩⟩
    · simp [h]
    · have hc : containsNode ns j = true := by rw [← findNode_isSome, h]; rfl
      cases data <;> simp [h, applyParentNode, findNode_setNode_self, hc]
  · unfold setParentNode
    rcases h : findNode ns c with _ | ⟨⟨d, data⟩⟩
    · simp [hj]
    · cases data <;> simp [hj, findNode_setNode_ne _ _ _ _ hj]

theorem containsNode_setParentNode (ns : List (String × GNode)) (c pid j : String) :
    containsNode (setParentNode ns c pid) j = containsNode ns j := by
  unfold setParentNode
  rcases h : findNode ns c with _ | ⟨⟨d, data⟩⟩
  · rfl
  · cases data <;> simp [containsNode_setNode]

theorem findNode_setParentFeature (ns : List (String × GNode)) (c pid j : String) :
    findNode (setParentFeature ns c pid) j =
      if j = c then (findNode ns c).map (applyParentFeature pid) else findNode ns j := by
  by_cases hj : j = c
  · subst hj
    unfold setParentFeature
    rcases h : findNode ns j with _ | ⟨⟨d, data⟩⟩
    · simp [h]
    · have hc : containsNode ns j = true := by rw [← findNode_isSome, h]; rfl
      cases data <;> simp [h, applyParentFeature, findNode_setNode_self, hc]
  · unfold setParentFeature
    rcases h : findNode ns c with _ | ⟨⟨d, data⟩⟩
    · simp [hj]
    · cases data <;> simp [hj, findNode_setNode_ne _ _ _ _ hj]

theorem containsNode_setParentFeature (ns : List (String × GNode)) (c pid j : String) :
    containsNode (setParentFeature ns c pid) j = containsNode ns j := by
  unfold setParentFeature
  rcases h : findNode ns c with _ | ⟨⟨d, data⟩⟩
  · rfl
  · cases data <;> simp [containsNode_setNode]

theorem findNode_setParentProblem (ns : List (String × GNode)) (c pid j : String) :
    findNode (setParentProblem ns c pid) j =
      if j = c then (findNode ns c).map (applyParentProblem pid) else findNode ns j := by
  by_cases hj : j = c
  · subst hj
    unfold setParentProblem
    rcases h : findNode ns j with _ | ⟨⟨d, data⟩⟩
    · simp [h]
    · have hc : containsNode ns j = true := by rw [← findNode_isSome, h]; rfl
      cases data <;> simp [h, applyParentProblem, findNode_setNode_self, hc]
  · unfold setParentProblem
    rcases h : findNode ns c with _ | ⟨⟨d, data⟩⟩
    · simp [hj]
    · cases data <;> simp [hj, findNode_setNode_ne _ _ _ _ hj]

theorem containsNode_setParentProblem (ns : List (String × GNode)) (c pid j : String) :
    containsNode (setParentProblem ns c pid) j = containsNode ns j := by
  unfold setParentProblem
  rcases h : findNode ns c with _ | ⟨⟨d, data⟩⟩
  · rfl
  · cases data <;> simp [containsNode_setNode]

theorem applyParentNode_idem (pid : String) (n : GNode) :
    applyParentNode pid (applyParentNode pid n) = applyParentNode pid n := by
  obtain ⟨d, data⟩ := n
  cases data <;> rfl

theorem applyParentFeature_idem (pid : String) (n : GNode) :
    applyParentFeature pid (applyParentFeature pid n) = applyParentFeature pid n := by
  obtain ⟨d, data⟩ := n
  cases data <;> rfl

theorem applyParentProblem_idem (pid : String) (n : GNode) :
    applyParentProblem pid (applyParentProblem pid n) = applyParentProblem pid n := by
  obtain ⟨d, data⟩ := n
  cases data <;> rfl

/-- Generic description of a fold of per-key idempotent writes. -/
theorem findNode_foldWrite
    (w : List (String × GNode) → String → String → List (String × GNode))
    (ap : String → GNode → GNode)
    (hfind : ∀ ns c pid j, findNode (w ns c pid) j =
      if j = c then (findNode ns c).map (ap pid) else findNode ns j)
    (hidem : ∀ pid n, ap pid (ap pid n) = ap pid n)
    (cs : List String) (ns : List (String × GNode)) (pid j : String) :
    findNode (cs.foldl (fun a c => w a c pid) ns) j =
      if j ∈ cs then (findNode ns j).map (ap pid) else findNode ns j := by
  induction cs generalizing ns with
  | nil => simp
  | cons c cs ih =>
    rw [List.foldl_cons, ih]
    simp only [hfind]
    by_cases hj2 : j = c
    · subst hj2
      rw [if_pos rfl, if_pos (List.mem_cons_self _ _)]
      by_cases hj1 : j ∈ cs
      · rw [if_pos hj1]
        cases o : findNode ns j <;> simp [hidem]
      · rw [if_neg hj1]
    · rw [if_neg hj2]
      by_cases hj1 : j ∈ cs
      · rw [if_pos hj1, if_pos (List.mem_cons_of_mem _ hj1)]
      · rw [if_neg hj1, if_neg (by simp [List.mem_cons, hj1, hj2])]

/-- Key sets are unchanged by a fold of per-key writes. -/
theorem containsNode_foldWrite
    (w : List (String × GNode) → String → String → List (String × GNode))
    (hcont : ∀ ns c pid j, containsNode (w ns c pid) j = containsNode ns j)
    (cs : List String) (ns : List (String × GNode)) (pid j : String) :
    containsNode (cs.foldl (fun a c => w a c pid) ns) j = containsNode ns j := by
  induction cs generalizing ns with
  | nil => rfl
  | cons c cs ih => rw [List.foldl_cons, ih, hcont]

theorem wireIds_ok (ns : List (String × GNode)) (ids : List String)
    (h : ∀ x ∈ ids, containsNode ns x = true) : wireIds ns ids = .ok ids := by
  induction ids with
  | nil => rfl
  | cons x rest ih =>
    have hx := h x (List.mem_cons_self _ _)
    have ih' := ih fun y hy => h y (List.mem_cons_of_mem _ hy)
    rw [wireIds, if_pos hx, ih']
    rfl

theorem wireIds_ok_elim (ns : List (String × GNode)) (ids : List String)
    (v : List String) (h : wireIds ns ids = .ok v) :
    v = ids ∧ ∀ x ∈ ids, containsNode ns x = true := by
  induction ids generalizing v with
  | nil =>
    simp [wireIds] at h
    subst h
    exact ⟨rfl, by simp⟩
  | cons x rest ih =>
    by_cases hx : containsNode ns x = true
    · rw [wireIds, if_pos hx] at h
      cases hr : wireIds ns rest with
      | error e => rw [hr] at h; cases h
      | ok r =>
        rw [hr] at h
        obtain ⟨hre, hrc⟩ := ih r hr
        cases h
        subst hre
        refine ⟨rfl, ?_⟩
        intro y hy
        rcases List.mem_cons.mp hy with rfl | hy'
        · exact hx
        · exact hrc y hy'
    · rw [wireIds, if_neg hx] at h
      cases h

theorem wirePairs_ok (ns : List (String × GNode)) (pairs : List (String × String))
    (h : ∀ pl ∈ pairs, containsNode ns pl.1 = true) :
    wirePairs ns pairs = .ok (pairs.map fun pl => (pl.1, pyLower pl.2)) := by
  induction pairs with
  | nil => rfl
  | cons pl rest ih =>
    obtain ⟨pid, lm⟩ := pl
    have hx := h (pid, lm) (List.mem_cons_self _ _)
    have ih' := ih fun y hy => h y (List.mem_cons_of_mem _ hy)
    rw [wirePairs, if_pos hx, ih']
    rfl

theorem wirePairs_ok_elim (ns : List (String × GNode)) (pairs : List (String × String))
    (v : List (String × String)) (h : wirePairs ns pairs = .ok v) :
    ∀ pl ∈ pairs, containsNode ns pl.1 = true := by
  induction pairs generalizing v with
  | nil => simp
  | cons pl rest ih =>
    obtain ⟨pid, lm⟩ := pl
    by_cases hx : containsNode ns pid = true
    · rw [wirePairs, if_pos hx] at h
      cases hr : wirePairs ns rest with
      | error e => rw [hr] at h; cases h
      | ok r =>
        intro y hy
        rcases List.mem_cons.mp hy with rfl | hy'
        · exact hx
        · exact ih r hr y hy'
    · rw [wirePairs, if_neg hx] at h
      cases h

theorem tempGet_of_refOK (N acc : List (String × GNode)) (r : Option String)
    (hks : ∀ i, containsNode acc i = containsNode N i)
    (h : refOK N r = true) : tempGet acc r = r := by
  cases r with
  | none => rfl
  | some p =>
    have h' : (p != "") = true ∧ containsNode N p = true := by
      simpa [refOK] using h
    have hne : ¬(p = "") := by simpa using h'.1
    simp only [tempGet]
    rw [if_neg hne, hks p, if_pos h'.2]

theorem childFeatOK_elim (N : List (String × GNode)) (parent c : String)
    (h : childFeatOK N parent c = true) :
    ∃ d r, findNode N c = some ⟨d, .feature r⟩ ∧ r.parent_node = some parent := by
  rcases hf : findNode N c with _ | ⟨⟨d, data⟩⟩
  · simp [childFeatOK, hf] at h
  · cases data with
    | feature r =>
      refine ⟨d, r, rfl, ?_⟩
      simpa [childFeatOK, hf] using h
    | origin r => simp [childFeatOK, hf] at h
    | problem r => simp [childFeatOK, hf] at h
    | solution r => simp [childFeatOK, hf] at h
    | success => simp [childFeatOK, hf] at h
    | failure => simp [childFeatOK, hf] at h

theorem childProbOK_elim (N : List (String × GNode)) (parent : String)
    (pl : String × String) (h : childProbOK N parent pl = true) :
    (∃ d r, findNode N pl.1 = some ⟨d, .problem r⟩ ∧ r.parent_feature = some parent) ∧
    pyLower pl.2 = pl.2 := by
  rcases hf : findNode N pl.1 with _ | ⟨⟨d, data⟩⟩
  · simp [childProbOK, hf] at h
  · cases data with
    | problem r =>
      have h' := h
      simp [childProbOK, hf] at h'
      exact ⟨⟨d, r, rfl, h'.1⟩, h'.2⟩
    | origin r => simp [childProbOK, hf] at h
    | feature r => simp [childProbOK, hf] at h
    | solution r => simp [childProbOK, hf] at h
    | success => simp [childProbOK, hf] at h
    | failure => simp [childProbOK, hf] at h

theorem childSolOK_elim (N : List (String × GNode)) (parent s : String)
    (h : childSolOK N parent s = true) :
    ∃ d r, findNode N s = some ⟨d, .solution r⟩ ∧ r.parent_problem = some parent := by
  rcases hf : findNode N s with _ | ⟨⟨d, data⟩⟩
  · simp [childSolOK, hf] at h
  · cases data with
    | solution r =>
      refine ⟨d, r, rfl, ?_⟩
      simpa [childSolOK, hf] using h
    | origin r => simp [childSolOK, hf] at h
    | feature r => simp [childSolOK, hf] at h
    | problem r => simp [childSolOK, hf] at h
    | success => simp [childSolOK, hf] at h
    | failure => simp [childSolOK, hf] at h

theorem applyParentNode_noop (pid : String) (d : String) (r : FeatureRec)
    (h : r.parent_node = some pid) :
    applyParentNode pid ⟨d, .feature r⟩ = ⟨d, .feature r⟩ := by
  obtain ⟨es, pn, cps, cf⟩ := r
  cases h
  rfl

theorem applyParentFeature_noop (pid : String) (d : String) (r : ProblemRec)
    (h : r.parent_feature = some pid) :
    applyParentFeature pid ⟨d, .problem r⟩ = ⟨d, .problem r⟩ := by
  obtain ⟨pf, m, sols, cf⟩ := r
  cases h
  rfl

theorem applyParentProblem_noop (pid : String) (d : String) (r : SolutionRec)
    (h : r.parent_problem = some pid) :
    applyParentProblem pid ⟨d, .solution r⟩ = ⟨d, .solution r⟩ := by
  obtain ⟨pp, sn⟩ := r
  cases h
  rfl

/-- With unique keys, every stored pair is what lookup returns. -/
theorem findNode_of_mem_nodup :
    ∀ (N : List (String × GNode)), (N.map Prod.fst).Nodup →
      ∀ p ∈ N, findNode N p.1 = some p.2 := by
  intro N
  induction N with
  | nil => simp
  | cons q rest ih =>
    intro hnd p hp
    rw [List.map_cons] at hnd
    have hnd' := List.nodup_cons.mp hnd
    rcases List.mem_cons.mp hp with rfl | hp'
    · rw [findNode_cons, if_pos (by simp)]
    · have hmem : p.1 ∈ rest.map Prod.fst := List.mem_map.mpr ⟨p, hp', rfl⟩
      have hne : ¬((q.1 == p.1) = true) := by
        intro hc
        exact hnd'.1 (eq_of_beq hc ▸ hmem)
      rw [findNode_cons, if_neg hne]
      exact ih hnd'.2 p hp'

theorem nodeWF_origin_elim (N : List (String × GNode)) (nid d : String) (r : OriginRec)
    (h : nodeWF N nid ⟨d, .origin r⟩ = true) :
    ∀ c ∈ r.child_features, childFeatOK N nid c = true := by
  simpa [nodeWF, List.all_eq_true] using h

theorem nodeWF_feature_elim (N : List (String × GNode)) (nid d : String) (r : FeatureRec)
    (h : nodeWF N nid ⟨d, .feature r⟩ = true) :
    refOK N r.parent_node = true ∧
    (∀ c ∈ r.child_features, childFeatOK N nid c = true) ∧
    (∀ pl ∈ r.child_problems, childProbOK N nid pl = true) := by
  have h' : (refOK N r.parent_node = true ∧
      ∀ x ∈ r.child_features, childFeatOK N nid x = true) ∧
      ∀ (a b : String), (a, b) ∈ r.child_problems → childProbOK N nid (a, b) = true := by
    simpa [nodeWF, List.all_eq_true] using h
  refine ⟨h'.1.1, h'.1.2, ?_⟩
  intro pl hpl
  obtain ⟨a, b⟩ := pl
  exact h'.2 a b hpl

theorem nodeWF_problem_elim (N : List (String × GNode)) (nid d : String) (r : ProblemRec)
    (h : nodeWF N nid ⟨d, .problem r⟩ = true) :
    refOK N r.parent_feature = true ∧
    (∀ c ∈ r.child_features, childFeatOK N nid c = true) ∧
    (∀ s ∈ r.solutions, childSolOK N nid s = true) := by
  have h' : (refOK N r.parent_feature = true ∧
      ∀ x ∈ r.child_features, childFeatOK N nid x = true) ∧
      ∀ x ∈ r.solutions, childSolOK N nid x = true := by
    simpa [nodeWF, List.all_eq_true] using h
  exact ⟨h'.1.1, h'.1.2, h'.2⟩

theorem nodeWF_solution_elim (N : List (String × GNode)) (nid d : String) (r : SolutionRec)
    (h : nodeWF N nid ⟨d, .solution r⟩ = true) :
    refOK N r.parent_problem = true ∧ refOK N r.success_node = true := by
  simpa [nodeWF] using h

/-- A consistent `parent_node` write keeps a pending feature in a `preOK`
state. -/
theorem applyParentNode_preOK (N : List (String × GNode)) (nid i : String)
    (n' cur : GNode) (hok : childFeatOK N nid i = true)
    (hn' : findNode N i = some n') (h : preOK n' cur) :
    preOK n' (applyParentNode nid cur) := by
  obtain ⟨df, rf, hff, hfp⟩ := childFeatOK_elim N nid i hok
  rw [hn'] at hff
  cases hff
  obtain ⟨pn, _, rfl⟩ := h
  exact ⟨some nid, Or.inr hfp.symm, rfl⟩

/-- A consistent `parent_node` write is a no-op on a finished feature. -/
theorem applyParentNode_final (N : List (String × GNode)) (nid i : String)
    (n' : GNode) (hok : childFeatOK N nid i = true) (hn' : findNode N i = some n') :
    applyParentNode nid n'.loadMode = n'.loadMode := by
  obtain ⟨df, rf, hff, hfp⟩ := childFeatOK_elim N nid i hok
  rw [hn'] at hff
  cases hff
  exact applyParentNode_noop nid df rf hfp

/-- A consistent `parent_feature` write keeps a pending problem in a
`preOK` state. -/
theorem applyParentFeature_preOK (N : List (String × GNode)) (nid i : String)
    (n' cur : GNode) (hok : ∃ lm, childProbOK N nid (i, lm) = true)
    (hn' : findNode N i = some n') (h : preOK n' cur) :
    preOK n' (applyParentFeature nid cur) := by
  obtain ⟨lm, h1⟩ := hok
  obtain ⟨⟨dp, rp, hpf, hpp⟩, _⟩ := childProbOK_elim N nid (i, lm) h1
  rw [hn'] at hpf
  cases hpf
  obtain ⟨pf, _, rfl⟩ := h
  exact ⟨some nid, Or.inr hpp.symm, rfl⟩

/-- A consistent `parent_feature` write is a no-op on a finished problem
(whose loaded `mode` is already `"soft"`). -/
theorem applyParentFeature_final (N : List (String × GNode)) (nid i : String)
    (n' : GNode) (hok : ∃ lm, childProbOK N nid (i, lm) = true)
    (hn' : findNode N i = some n') :
    applyParentFeature nid n'.loadMode = n'.loadMode := by
  obtain ⟨lm, h1⟩ := hok
  obtain ⟨⟨dp, rp, hpf, hpp⟩, _⟩ := childProbOK_elim N nid (i, lm) h1
  rw [hn'] at hpf
  cases hpf
  exact applyParentFeature_noop nid dp { rp with mode := "soft" } hpp

/-- A consistent `parent_problem` write keeps a pending solution in a
`preOK` state. -/
theorem applyParentProblem_preOK (N : List (String × GNode)) (nid i : String)
    (n' cur : GNode) (hok : childSolOK N nid i = true)
    (hn' : findNode N i = some n') (h : preOK n' cur) :
    preOK n' (applyParentProblem nid cur) := by
  obtain ⟨ds, rs, hsf, hsp⟩ := childSolOK_elim N nid i hok
  rw [hn'] at hsf
  cases hsf
  obtain ⟨pp, _, rfl⟩ := h
  exact ⟨some nid, Or.inr hsp.symm, rfl⟩

/-- A consistent `parent_problem` write is a no-op on a finished solution. -/
theorem applyParentProblem_final (N : List (String × GNode)) (nid i : String)
    (n' : GNode) (hok : childSolOK N nid i = true) (hn' : findNode N i = some n') :
    applyParentProblem nid n'.loadMode = n'.loadMode := by
  obtain ⟨ds, rs, hsf, hsp⟩ := childSolOK_elim N nid i hok
  rw [hn'] at hsf
  cases hsf
  exact applyParentProblem_noop nid ds rs hsp

theorem map_pairs_id (l : List (String × String))
    (h : ∀ pl ∈ l, pyLower pl.2 = pl.2) :
    l.map (fun pl => (pl.1, pyLower pl.2)) = l := by
  induction l with
  | nil => rfl
  | cons pl rest ih =>
    obtain ⟨a, b⟩ := pl
    have hb := h (a, b) (List.mem_cons_self _ _)
    have ih' := ih fun y hy => h y (List.mem_cons_of_mem _ hy)
    simp only [List.map_cons, ih']
    simp at hb
    rw [hb]

theorem contains_of_findNode (N acc : List (String × GNode)) (i : String)
    (hks : ∀ j, containsNode acc j = containsNode N j)
    (n : GNode) (h : findNode N i = some n) : containsNode acc i = true := by
  rw [hks i, ← findNode_isSome, h]
  rfl

/-- Pass-2 evaluation on an Origin record. -/
theorem wireNode_origin_ok (N acc : List (String × GNode)) (nid d : String)
    (r : OriginRec)
    (hks : ∀ i, containsNode acc i = containsNode N i)
    (hfind : findNode acc nid = some ⟨d, .origin ⟨[]⟩⟩)
    (hwf : ∀ c ∈ r.child_features, childFeatOK N nid c = true) :
    wireNode acc nid (saveMeta ⟨d, .origin r⟩) = .ok
      (r.child_features.foldl (fun a c => setParentNode a c nid)
        (setNode acc nid ⟨d, .origin r⟩)) := by
  have hcf : ∀ x ∈ r.child_features, containsNode acc x = true := by
    intro x hx
    obtain ⟨dx, rx, hfx, _⟩ := childFeatOK_elim N nid x (hwf x hx)
    exact contains_of_findNode N acc x hks _ hfx
  have hwire := wireIds_ok acc r.child_features hcf
  simp only [wireNode, hfind, saveMeta]
  rw [hwire]
  rfl

/-- Pass-2 evaluation on a Feature record. -/
theorem wireNode_feature_ok (N acc : List (String × GNode)) (nid d : String)
    (r : FeatureRec) (pn : Option String)
    (hks : ∀ i, containsNode acc i = containsNode N i)
    (hfind : findNode acc nid = some ⟨d, .feature ⟨r.expected_state, pn, [], []⟩⟩)
    (hrefOK : refOK N r.parent_node = true)
    (hcfok : ∀ c ∈ r.child_features, childFeatOK N nid c = true)
    (hcpok : ∀ pl ∈ r.child_problems, childProbOK N nid pl = true) :
    wireNode acc nid (saveMeta ⟨d, .feature r⟩) = .ok
      (r.child_problems.foldl (fun a pl => setParentFeature a pl.1 nid)
        (r.child_features.foldl (fun a c => setParentNode a c nid)
          (setNode acc nid ⟨d, .feature r⟩))) := by
  have hcf : ∀ x ∈ r.child_features, containsNode acc x = true := by
    intro x hx
    obtain ⟨dx, rx, hfx, _⟩ := childFeatOK_elim N nid x (hcfok x hx)
    exact contains_of_findNode N acc x hks _ hfx
  have hlower : ∀ pl ∈ r.child_problems, pyLower pl.2 = pl.2 :=
    fun pl hpl => (childProbOK_elim N nid pl (hcpok pl hpl)).2
  have hmapid := map_pairs_id r.child_problems hlower
  have hcp : ∀ pl ∈ r.child_problems, containsNode acc pl.1 = true := by
    intro pl hpl
    obtain ⟨⟨dp, rp, hfp, _⟩, _⟩ := childProbOK_elim N nid pl (hcpok pl hpl)
    exact contains_of_findNode N acc pl.1 hks _ hfp
  have htg : tempGet acc r.parent_node = r.parent_node :=
    tempGet_of_refOK N acc _ hks hrefOK
  have hwcf := wireIds_ok acc r.child_features hcf
  have hwcp : wirePairs acc (r.child_problems.map fun pl => (pl.1, pyLower pl.2)) =
      .ok r.child_problems := by
    rw [hmapid, wirePairs_ok acc r.child_problems hcp, hmapid]
  simp only [wireNode, hfind, saveMeta]
  rw [htg, hwcf, hwcp]
  rfl

/-- Pass-2 evaluation on a Problem record: note the written node keeps the
pass-1 `mode` `"soft"`, so it is the `loadMode` image of the saved node. -/
theorem wireNode_problem_ok (N acc : List (String × GNode)) (nid d : String)
    (r : ProblemRec) (pf : Option String)
    (hks : ∀ i, containsNode acc i = containsNode N i)
    (hfind : findNode acc nid = some ⟨d, .problem ⟨pf, "soft", [], []⟩⟩)
    (hrefOK : refOK N r.parent_feature = true)
    (hcfok : ∀ c ∈ r.child_features, childFeatOK N nid c = true)
    (hsok : ∀ s ∈ r.solutions, childSolOK N nid s = true) :
    wireNode acc nid (saveMeta ⟨d, .problem r⟩) = .ok
      (r.solutions.foldl (fun a s => setParentProblem a s nid)
        (r.child_features.foldl (fun a c => setParentNode a c nid)
          (setNode acc nid (GNode.loadMode ⟨d, .problem r⟩)))) := by
  have hcf : ∀ x ∈ r.child_features, containsNode acc x = true := by
    intro x hx
    obtain ⟨dx, rx, hfx, _⟩ := childFeatOK_elim N nid x (hcfok x hx)
    exact contains_of_findNode N acc x hks _ hfx
  have hsols : ∀ x ∈ r.solutions, containsNode acc x = true := by
    intro x hx
    obtain ⟨dx, rx, hfx, _⟩ := childSolOK_elim N nid x (hsok x hx)
    exact contains_of_findNode N acc x hks _ hfx
  have htg : tempGet acc r.parent_feature = r.parent_feature :=
    tempGet_of_refOK N acc _ hks hrefOK
  have hwcf := wireIds_ok acc r.child_features hcf
  have hwsols := wireIds_ok acc r.solutions hsols
  simp only [wireNode, hfind, saveMeta]
  rw [htg, hwcf, hwsols]
  rfl

/-- Pass-2 evaluation on a Solution record. -/
theorem wireNode_solution_ok (N acc : List (String × GNode)) (nid d : String)
    (r : SolutionRec) (pp : Option String)
    (hks : ∀ i, containsNode acc i = containsNode N i)
    (hfind : findNode acc nid = some ⟨d, .solution ⟨pp, none⟩⟩)
    (h1 : refOK N r.parent_problem = true) (h2 : refOK N r.success_node = true) :
    wireNode acc nid (saveMeta ⟨d, .solution r⟩) = .ok
      (setNode acc nid ⟨d, .solution r⟩) := by
  simp only [wireNode, hfind, saveMeta]
  rw [tempGet_of_refOK N acc _ hks h1, tempGet_of_refOK N acc _ hks h2]

/-- The pairs fold of the feature branch is a key fold. -/
theorem pairsFold_setParentFeature (cps : List (String × String))
    (X : List (String × GNode)) (nid : String) :
    cps.foldl (fun a pl => setParentFeature a pl.1 nid) X =
      (cps.map Prod.fst).foldl (fun a c => setParentFeature a c nid) X :=
  (List.foldl_map Prod.fst (fun a c => setParentFeature a c nid) cps X).symm

/-- Folding consistent `parent_node` writes preserves both the pending and
the finished characterization of every entry. -/
theorem fold_tracks_parentNode (N ns : List (String × GNode)) (nid : String)
    (cs : List String) (hcs : ∀ c ∈ cs, childFeatOK N nid c = true)
    (i : String) (n' cur : GNode) (hn' : findNode N i = some n')
    (hcur : findNode ns i = some cur) :
    ∃ cur₂, findNode (cs.foldl (fun a c => setParentNode a c nid) ns) i = some cur₂ ∧
      (preOK n' cur → preOK n' cur₂) ∧ (cur = n'.loadMode → cur₂ = n'.loadMode) := by
  rw [findNode_foldWrite setParentNode applyParentNode findNode_setParentNode
      applyParentNode_idem, hcur]
  by_cases hi : i ∈ cs
  · rw [if_pos hi]
    refine ⟨applyParentNode nid cur, rfl, ?_, ?_⟩
    · exact applyParentNode_preOK N nid i n' cur (hcs i hi) hn'
    · rintro rfl
      exact applyParentNode_final N nid i n' (hcs i hi) hn'
  · rw [if_neg hi]
    exact ⟨cur, rfl, id, id⟩

/-- Folding consistent `parent_feature` writes preserves both
characterizations. -/
theorem fold_tracks_parentFeature (N ns : List (String × GNode)) (nid : String)
    (cs : List String) (hcs : ∀ c ∈ cs, ∃ lm, childProbOK N nid (c, lm) = true)
    (i : String) (n' cur : GNode) (hn' : findNode N i = some n')
    (hcur : findNode ns i = some cur) :
    ∃ cur₂, findNode (cs.foldl (fun a c => setParentFeature a c nid) ns) i = some cur₂ ∧
      (preOK n' cur → preOK n' cur₂) ∧ (cur = n'.loadMode → cur₂ = n'.loadMode) := by
  rw [findNode_foldWrite setParentFeature applyParentFeature findNode_setParentFeature
      applyParentFeature_idem, hcur]
  by_cases hi : i ∈ cs
  · rw [if_pos hi]
    refine ⟨applyParentFeature nid cur, rfl, ?_, ?_⟩
    · exact applyParentFeature_preOK N nid i n' cur (hcs i hi) hn'
    · rintro rfl
      exact applyParentFeature_final N nid i n' (hcs i hi) hn'
  · rw [if_neg hi]
    exact ⟨cur, rfl, id, id⟩

/-- Folding consistent `parent_problem` writes preserves both
characterizations. -/
theorem fold_tracks_parentProblem (N ns : List (String × GNode)) (nid : String)
    (cs : List String) (hcs : ∀ c ∈ cs, childSolOK N nid c = true)
    (i : String) (n' cur : GNode) (hn' : findNode N i = some n')
    (hcur : findNode ns i = some cur) :
    ∃ cur₂, findNode (cs.foldl (fun a c => setParentProblem a c nid) ns) i = some cur₂ ∧
      (preOK n' cur → preOK n' cur₂) ∧ (cur = n'.loadMode → cur₂ = n'.loadMode) := by
  rw [findNode_foldWrite setParentProblem applyParentProblem findNode_setParentProblem
      applyParentProblem_idem, hcur]
  by_cases hi : i ∈ cs
  · rw [if_pos hi]
    refine ⟨applyParentProblem nid cur, rfl, ?_, ?_⟩
    · exact applyParentProblem_preOK N nid i n' cur (hcs i hi) hn'
    · rintro rfl
      exact applyParentProblem_final N nid i n' (hcs i hi) hn'
  · rw [if_neg hi]
    exact ⟨cur, rfl, id, id⟩

/-- Processing one record (rewrite at its key plus feature/problem
back-pointer folds) turns that entry into its final value and keeps every
other entry on track. -/
theorem inv_after_step_pf
    (N acc : List (String × GNode)) (nid : String) (n v : GNode)
    (pend : List String) (hnotin : nid ∉ pend)
    (hn : findNode N nid = some n)
    (hv : v = n.loadMode)
    (hcont : containsNode acc nid = true)
    (hval : ∀ i n', findNode N i = some n' →
      ∃ cur, findNode acc i = some cur ∧
        (if i = nid ∨ i ∈ pend then preOK n' cur else cur = n'.loadMode))
    (cs₁ cs₂ : List String)
    (hcs₁ : ∀ c ∈ cs₁, childFeatOK N nid c = true)
    (hcs₂ : ∀ c ∈ cs₂, ∃ lm, childProbOK N nid (c, lm) = true) :
    ∀ i n', findNode N i = some n' →
      ∃ cur, findNode
          (cs₂.foldl (fun a c => setParentFeature a c nid)
            (cs₁.foldl (fun a c => setParentNode a c nid)
              (setNode acc nid v))) i = some cur ∧
        (if i ∈ pend then preOK n' cur else cur = n'.loadMode) := by
  intro i n' hn'
  by_cases hi : i = nid
  · subst hi
    rw [hn] at hn'
    obtain rfl : n = n' := Option.some.inj hn'
    have h0 : findNode (setNode acc i v) i = some v := by
      rw [findNode_setNode_self, if_pos hcont]
    obtain ⟨c1, h1, _, hf1⟩ := fold_tracks_parentNode N _ i cs₁ hcs₁ i n v hn h0
    obtain ⟨c2, h2, _, hf2⟩ := fold_tracks_parentFeature N _ i cs₂ hcs₂ i n c1 hn h1
    refine ⟨c2, h2, ?_⟩
    rw [if_neg hnotin]
    exact hf2 (hf1 hv)
  · obtain ⟨cur, hcur, hcc⟩ := hval i n' hn'
    have hcc' : if i ∈ pend then preOK n' cur else cur = n'.loadMode := by
      simpa [hi] using hcc
    have h0 : findNode (setNode acc nid v) i = some cur := by
      rw [findNode_setNode_ne _ _ _ _ hi, hcur]
    obtain ⟨c1, h1, hp1, hf1⟩ := fold_tracks_parentNode N _ nid cs₁ hcs₁ i n' cur hn' h0
    obtain ⟨c2, h2, hp2, hf2⟩ := fold_tracks_parentFeature N _ nid cs₂ hcs₂ i n' c1 hn' h1
    refine ⟨c2, h2, ?_⟩
    by_cases hp : i ∈ pend
    · rw [if_pos hp]
      rw [if_pos hp] at hcc'
      exact hp2 (hp1 hcc')
    · rw [if_neg hp]
      rw [if_neg hp] at hcc'
      exact hf2 (hf1 hcc')

/-- Like `inv_after_step_pf`, with solution back-pointer folds. -/
theorem inv_after_step_pp
    (N acc : List (String × GNode)) (nid : String) (n v : GNode)
    (pend : List String) (hnotin : nid ∉ pend)
    (hn : findNode N nid = some n)
    (hv : v = n.loadMode)
    (hcont : containsNode acc nid = true)
    (hval : ∀ i n', findNode N i = some n' →
      ∃ cur, findNode acc i = some cur ∧
        (if i = nid ∨ i ∈ pend then preOK n' cur else cur = n'.loadMode))
    (cs₁ cs₂ : List String)
    (hcs₁ : ∀ c ∈ cs₁, childFeatOK N nid c = true)
    (hcs₂ : ∀ c ∈ cs₂, childSolOK N nid c = true) :
    ∀ i n', findNode N i = some n' →
      ∃ cur, findNode
          (cs₂.foldl (fun a c => setParentProblem a c nid)
            (cs₁.foldl (fun a c => setParentNode a c nid)
              (setNode acc nid v))) i = some cur ∧
        (if i ∈ pend then preOK n' cur else cur = n'.loadMode) := by
  intro i n' hn'
  by_cases hi : i = nid
  · subst hi
    rw [hn] at hn'
    obtain rfl : n = n' := Option.some.inj hn'
    have h0 : findNode (setNode acc i v) i = some v := by
      rw [findNode_setNode_self, if_pos hcont]
    obtain ⟨c1, h1, _, hf1⟩ := fold_tracks_parentNode N _ i cs₁ hcs₁ i n v hn h0
    obtain ⟨c2, h2, _, hf2⟩ := fold_tracks_parentProblem N _ i cs₂ hcs₂ i n c1 hn h1
    refine ⟨c2, h2, ?_⟩
    rw [if_neg hnotin]
    exact hf2 (hf1 hv)
  · obtain ⟨cur, hcur, hcc⟩ := hval i n' hn'
    have hcc' : if i ∈ pend then preOK n' cur else cur = n'.loadMode := by
      simpa [hi] using hcc
    have h0 : findNode (setNode acc nid v) i = some cur := by
      rw [findNode_setNode_ne _ _ _ _ hi, hcur]
    obtain ⟨c1, h1, hp1, hf1⟩ := fold_tracks_parentNode N _ nid cs₁ hcs₁ i n' cur hn' h0
    obtain ⟨c2, h2, hp2, hf2⟩ := fold_tracks_parentProblem N _ nid cs₂ hcs₂ i n' c1 hn' h1
    refine ⟨c2, h2, ?_⟩
    by_cases hp : i ∈ pend
    · rw [if_pos hp]
      rw [if_pos hp] at hcc'
      exact hp2 (hp1 hcc')
    · rw [if_neg hp]
      rw [if_neg hp] at hcc'
      exact hf2 (hf1 hcc')

/-- Pass 2 over the saved records of a well-formed node set rewires every
node to its original value, except that problems keep the pass-1 `"soft"`
mode. -/
theorem loadPass2_roundtrip (N : List (String × GNode))
    (hwfall : ∀ i n, findNode N i = some n → nodeWF N i n = true) :
    ∀ (rest : List (String × GNode)) (acc : List (String × GNode)),
      (∀ p ∈ rest, findNode N p.1 = some p.2) →
      (rest.map Prod.fst).Nodup →
      (∀ i, containsNode acc i = containsNode N i) →
      (∀ i n', findNode N i = some n' →
        ∃ cur, findNode acc i = some cur ∧
          (if i ∈ rest.map Prod.fst then preOK n' cur else cur = n'.loadMode)) →
      ∃ final, loadPass2 (rest.map fun p => (p.1, saveMeta p.2)) acc = .ok final ∧
        (∀ i, containsNode final i = containsNode N i) ∧
        (∀ i n', findNode N i = some n' → findNode final i = some n'.loadMode) := by
  intro rest
  induction rest with
  | nil =>
    intro acc _ _ hks hval
    refine ⟨acc, rfl, hks, ?_⟩
    intro i n' hn'
    obtain ⟨cur, hcur, hc2⟩ := hval i n' hn'
    simp at hc2
    rw [hcur, hc2]
  | cons hd rest ih =>
    obtain ⟨nid, n⟩ := hd
    intro acc hmem hnd hks hval
    have hn : findNode N nid = some n := hmem _ (List.mem_cons_self _ _)
    have hwfn := hwfall nid n hn
    rw [List.map_cons] at hnd
    have hnd' := List.nodup_cons.mp hnd
    have hnotin : nid ∉ rest.map Prod.fst := hnd'.1
    simp only [List.map_cons, List.mem_cons] at hval
    obtain ⟨cur, hcur, hc2⟩ := hval nid n hn
    rw [if_pos (Or.inl rfl)] at hc2
    have hcont : containsNode acc nid = true := by
      rw [← findNode_isSome, hcur]; rfl
    have hmem' : ∀ p ∈ rest, findNode N p.1 = some p.2 :=
      fun p hp => hmem p (List.mem_cons_of_mem _ hp)
    obtain ⟨dn, data⟩ := n
    simp only [List.map_cons]
    cases data with
    | origin r =>
      have hcfok := nodeWF_origin_elim N nid dn r hwfn
      have hcur2 : cur = ⟨dn, .origin ⟨[]⟩⟩ := by simpa [preOK, defaultG] using hc2
      subst hcur2
      have hw := wireNode_origin_ok N acc nid dn r hks hcur hcfok
      simp only [loadPass2, hw]
      refine ih _ hmem' hnd'.2 (fun j => ?_)
        (inv_after_step_pf N acc nid ⟨dn, .origin r⟩ ⟨dn, .origin r⟩
          (rest.map Prod.fst) hnotin hn rfl hcont hval r.child_features [] hcfok
          (by simp))
      rw [containsNode_foldWrite setParentNode containsNode_setParentNode,
          containsNode_setNode, hks]
    | feature r =>
      obtain ⟨hrefOK, hcfok, hcpok⟩ := nodeWF_feature_elim N nid dn r hwfn
      have hcur2 : ∃ pn, (pn = none ∨ pn = r.parent_node) ∧
          cur = ⟨dn, .feature ⟨r.expected_state, pn, [], []⟩⟩ := by
        simpa [preOK] using hc2
      obtain ⟨pn, _, rfl⟩ := hcur2
      have hw := wireNode_feature_ok N acc nid dn r pn hks hcur hrefOK hcfok hcpok
      simp only [loadPass2, hw]
      rw [pairsFold_setParentFeature]
      have hcs₂ : ∀ c ∈ r.child_problems.map Prod.fst,
          ∃ lm, childProbOK N nid (c, lm) = true := by
        intro c hc
        obtain ⟨pl, hpl, rfl⟩ := List.mem_map.mp hc
        exact ⟨pl.2, hcpok pl hpl⟩
      refine ih _ hmem' hnd'.2 (fun j => ?_)
        (inv_after_step_pf N acc nid ⟨dn, .feature r⟩ ⟨dn, .feature r⟩
          (rest.map Prod.fst) hnotin hn rfl hcont hval r.child_features
          (r.child_problems.map Prod.fst) hcfok hcs₂)
      rw [containsNode_foldWrite setParentFeature containsNode_setParentFeature,
          containsNode_foldWrite setParentNode containsNode_setParentNode,
          containsNode_setNode, hks]
    | problem r =>
      obtain ⟨hrefOK, hcfok, hsok⟩ := nodeWF_problem_elim N nid dn r hwfn
      have hcur2 : ∃ pf, (pf = none ∨ pf = r.parent_feature) ∧
          cur = ⟨dn, .problem ⟨pf, "soft", [], []⟩⟩ := by
        simpa [preOK] using hc2
      obtain ⟨pf, _, rfl⟩ := hcur2
      have hw := wireNode_problem_ok N acc nid dn r pf hks hcur hrefOK hcfok hsok
      simp only [loadPass2, hw]
      refine ih _ hmem' hnd'.2 (fun j => ?_)
        (inv_after_step_pp N acc nid ⟨dn, .problem r⟩
          (GNode.loadMode ⟨dn, .problem r⟩) (rest.map Prod.fst) hnotin hn rfl hcont
          hval r.child_features r.solutions hcfok hsok)
      rw [containsNode_foldWrite setParentProblem containsNode_setParentProblem,
          containsNode_foldWrite setParentNode containsNode_setParentNode,
          containsNode_setNode, hks]
    | solution r =>
      obtain ⟨h1, h2⟩ := nodeWF_solution_elim N nid dn r hwfn
      have hcur2 : ∃ pp, (pp = none ∨ pp = r.parent_problem) ∧
          cur = ⟨dn, .solution ⟨pp, none⟩⟩ := by
        simpa [preOK] using hc2
      obtain ⟨pp, _, rfl⟩ := hcur2
      have hw := wireNode_solution_ok N acc nid dn r pp hks hcur h1 h2
      simp only [loadPass2, hw]
      refine ih _ hmem' hnd'.2 (fun j => ?_)
        (inv_after_step_pf N acc nid ⟨dn, .solution r⟩ ⟨dn, .solution r⟩
          (rest.map Prod.fst) hnotin hn rfl hcont hval [] [] (by simp) (by simp))
      rw [containsNode_setNode, hks]
    | success =>
      have hcur2 : cur = ⟨dn, .success⟩ := by simpa [preOK, defaultG] using hc2
      subst hcur2
      have hw : wireNode acc nid (saveMeta ⟨dn, .success⟩) = .ok acc := by
        simp only [wireNode, hcur, saveMeta]
      simp only [loadPass2, hw]
      refine ih _ hmem' hnd'.2 hks ?_
      intro i n' hn'
      obtain ⟨cur', hcur', hcc⟩ := hval i n' hn'
      by_cases hi : i = nid
      · subst hi
        rw [hn] at hn'
        obtain rfl : (⟨dn, .success⟩ : GNode) = n' := Option.some.inj hn'
        have hc' : cur' = (⟨dn, .success⟩ : GNode) := by
          rw [hcur] at hcur'
          exact (Option.some.inj hcur').symm
        refine ⟨cur', hcur', ?_⟩
        rw [if_neg hnotin, hc']
        rfl
      · refine ⟨cur', hcur', ?_⟩
        by_cases hp : i ∈ rest.map Prod.fst
        · rw [if_pos hp]
          rw [if_pos (Or.inr hp)] at hcc
          exact hcc
        · rw [if_neg hp]
          rw [if_neg (by simp [hi, hp])] at hcc
          exact hcc
    | failure =>
      have hcur2 : cur = ⟨dn, .failure⟩ := by simpa [preOK, defaultG] using hc2
      subst hcur2
      have hw : wireNode acc nid (saveMeta ⟨dn, .failure⟩) = .ok acc := by
        simp only [wireNode, hcur, saveMeta]
      simp only [loadPass2, hw]
      refine ih _ hmem' hnd'.2 hks ?_
      intro i n' hn'
      obtain ⟨cur', hcur', hcc⟩ := hval i n' hn'
      by_cases hi : i = nid
      · subst hi
        rw [hn] at hn'
        obtain rfl : (⟨dn, .failure⟩ : GNode) = n' := Option.some.inj hn'
        have hc' : cur' = (⟨dn, .failure⟩ : GNode) := by
          rw [hcur] at hcur'
          exact (Option.some.inj hcur').symm
        refine ⟨cur', hcur', ?_⟩
        rw [if_neg hnotin, hc']
        rfl
      · refine ⟨cur', hcur', ?_⟩
        by_cases hp : i ∈ rest.map Prod.fst
        · rw [if_pos hp]
          rw [if_pos (Or.inr hp)] at hcc
          exact hcc
        · rw [if_neg hp]
          rw [if_neg (by simp [hi, hp])] at hcc
          exact hcc

/-- Pass 1 on a saved node table produces the pass-1 defaults. -/
theorem defaultNode_saveMeta (n : GNode) :
    defaultNode (saveMeta n) = .ok (defaultG n) := by
  obtain ⟨d, data⟩ := n
  cases data <;> rfl

theorem loadPass1_save (ns : List (String × GNode)) :
    loadPass1 (ns.map fun p => (p.1, saveMeta p.2)) =
      .ok (ns.map fun p => (p.1, defaultG p.2)) := by
  induction ns with
  | nil => rfl
  | cons p rest ih =>
    simp only [List.map_cons, loadPass1, defaultNode_saveMeta, ih]
    rfl

/-- Every pass-1 default is a valid pre-wiring state. -/
theorem preOK_defaultG (n : GNode) : preOK n (defaultG n) := by
  obtain ⟨d, data⟩ := n
  cases data with
  | origin r => rfl
  | feature r => exact ⟨none, Or.inl rfl, rfl⟩
  | problem r => exact ⟨none, Or.inl rfl, rfl⟩
  | solution r => exact ⟨none, Or.inl rfl, rfl⟩
  | success => rfl
  | failure => rfl

/-- A successful lookup names a stored pair. -/
theorem findNode_elim (N : List (String × GNode)) (i : String) (n : GNode)
    (h : findNode N i = some n) : (i, n) ∈ N := by
  unfold findNode at h
  cases hf : N.find? (fun p => p.1 == i) with
  | none => rw [hf] at h; cases h
  | some p =>
    rw [hf] at h
    obtain rfl : p.2 = n := Option.some.inj h
    have hp0 := List.find?_some hf
    have hmem := List.mem_of_find?_eq_some hf
    have hpe : p.1 = i := eq_of_beq (by simpa using hp0)
    rw [← hpe]
    exact hmem

/-- The components of graph well-formedness. -/
theorem wf_unpack (g : Graph) (h : g.wf = true) :
    (g.nodes.map Prod.fst).Nodup ∧
    containsNode g.nodes g.root_id = true ∧
    containsNode g.nodes g.success_id = true ∧
    containsNode g.nodes g.failure_id = true ∧
    (∀ p ∈ g.nodes, nodeWF g.nodes p.1 p.2 = true) := by
  rw [Graph.wf] at h
  simp only [Bool.and_eq_true, decide_eq_true_eq, List.all_eq_true] at h
  exact ⟨h.1.1.1.1.1, h.1.1.1.2, h.1.1.2, h.1.2, h.2⟩

/-- Assembled evaluation of `Engine.load_nodes`. -/
theorem loadNodes_decomp (doc : Doc) (temp final : List (String × GNode))
    (h1 : loadPass1 doc.nodes = .ok temp)
    (h2 : containsNode temp doc.root_id = true)
    (h3 : containsNode temp doc.success_id = true)
    (h4 : containsNode temp doc.failure_id = true)
    (h5 : loadPass2 doc.nodes temp = .ok final) :
    loadNodes doc = .ok { root_id := doc.root_id, success_id := doc.success_id,
                          failure_id := doc.failure_id, nodes := final } := by
  simp only [loadNodes, h1, h2, h3, h4, h5, eq_self_iff_true, if_true]

/-! ## Claim C6 -/

/-- C6 counterexample: saving and re-loading a well-formed graph whose
problem `P1` has `mode = "hard"` yields a graph whose `P1` has
`mode = "soft"` — the loader never restores a problem's own `mode` — so
`load(save(G)) == G` fails. -/
theorem c6_counterexample :
    loadNodes (saveNodes c6GraphEx) = .ok c6LoadedEx ∧
    c6LoadedEx ≠ c6GraphEx ∧
    findNode c6LoadedEx.nodes "P1" ≠ findNode c6GraphEx.nodes "P1" := by
  refine ⟨by rfl, by decide, by decide⟩

/-- C6 (amended): for every well-formed graph, `load(save(G))` succeeds
and returns a graph with the same root/success/failure ids whose node
table agrees with `G` at every id on kind, description, child lists, link
modes and parent/target references; the only difference is that every
Problem's own `mode` field is reset to `"soft"`. -/
theorem c6_roundtrip_amended (g : Graph) (hwf : g.wf = true) :
    ∃ g', loadNodes (saveNodes g) = .ok g' ∧
      g'.root_id = g.root_id ∧ g'.success_id = g.success_id ∧
      g'.failure_id = g.failure_id ∧
      (∀ i, findNode g'.nodes i = (findNode g.nodes i).map GNode.loadMode) := by
  obtain ⟨hnd, hroot, hsucc, hfail, hall⟩ := wf_unpack g hwf
  have hwfall : ∀ i n, findNode g.nodes i = some n → nodeWF g.nodes i n = true := by
    intro i n hfind
    have hm := findNode_elim g.nodes i n hfind
    exact hall (i, n) hm
  have hks₀ : ∀ i, containsNode (g.nodes.map fun p => (p.1, defaultG p.2)) i =
      containsNode g.nodes i := containsNode_map_value g.nodes defaultG
  have hval₀ : ∀ i n', findNode g.nodes i = some n' →
      ∃ cur, findNode (g.nodes.map fun p => (p.1, defaultG p.2)) i = some cur ∧
        (if i ∈ g.nodes.map Prod.fst then preOK n' cur else cur = n'.loadMode) := by
    intro i n' h
    refine ⟨defaultG n', ?_, ?_⟩
    · rw [findNode_map_value, h]
      rfl
    · have hi : i ∈ g.nodes.map Prod.fst :=
        List.mem_map.mpr ⟨(i, n'), findNode_elim g.nodes i n' h, rfl⟩
      rw [if_pos hi]
      exact preOK_defaultG n'
  have hmemN := findNode_of_mem_nodup g.nodes hnd
  obtain ⟨final, hpass2, hksF, hvalF⟩ :=
    loadPass2_roundtrip g.nodes hwfall g.nodes (g.nodes.map fun p => (p.1, defaultG p.2))
      hmemN hnd hks₀ hval₀
  refine ⟨{ root_id := g.root_id, success_id := g.success_id,
            failure_id := g.failure_id, nodes := final }, ?_, rfl, rfl, rfl, ?_⟩
  · exact loadNodes_decomp (saveNodes g) _ final (loadPass1_save g.nodes)
      (by rw [hks₀]; exact hroot) (by rw [hks₀]; exact hsucc)
      (by rw [hks₀]; exact hfail) hpass2
  · intro i
    cases h : findNode g.nodes i with
    | some n' =>
      rw [hvalF i n' h]
      rfl
    | none =>
      have hc : containsNode g.nodes i = false := by
        rw [← findNode_isSome, h]
        rfl
      have h2 : (findNode final i).isSome = false := by
        rw [findNode_isSome, hksF, hc]
      cases hf : findNode final i with
      | none => rfl
      | some x =>
        rw [hf] at h2
        cases h2

/-- C6 witness: the amended statement evaluated on the concrete
well-formed graph `c6GraphEx`. -/
theorem c6_roundtrip_witness :
    ∃ g', loadNodes (saveNodes c6GraphEx) = .ok g' ∧
      g'.root_id = c6GraphEx.root_id ∧ g'.success_id = c6GraphEx.success_id ∧
      g'.failure_id = c6GraphEx.failure_id ∧
      (∀ i, findNode g'.nodes i = (findNode c6GraphEx.nodes i).map GNode.loadMode) :=
  c6_roundtrip_amended c6GraphEx (by decide)

/-! ## Lemmas for the dangling-reference claim -/

theorem bind_ok_elim {ε α β : Type} (x : Except ε α) (f : α → Except ε β) (b : β)
    (h : (x >>= f) = .ok b) : ∃ a, x = .ok a ∧ f a = .ok b := by
  cases x with
  | error e =>
    have h' : (Except.error e : Except ε α) >>= f = Except.error e := rfl
    rw [h'] at h
    cases h
  | ok a =>
    have h' : (Except.ok a : Except ε α) >>= f = f a := rfl
    rw [h'] at h
    exact ⟨a, rfl, h⟩

theorem dataCtor_applyParentNode (pid : String) (n : GNode) :
    dataCtor (applyParentNode pid n).data = dataCtor n.data := by
  obtain ⟨d, data⟩ := n
  cases data <;> rfl

theorem dataCtor_applyParentFeature (pid : String) (n : GNode) :
    dataCtor (applyParentFeature pid n).data = dataCtor n.data := by
  obtain ⟨d, data⟩ := n
  cases data <;> rfl

theorem dataCtor_applyParentProblem (pid : String) (n : GNode) :
    dataCtor (applyParentProblem pid n).data = dataCtor n.data := by
  obtain ⟨d, data⟩ := n
  cases data <;> rfl

theorem ctorOf_setNode (acc : List (String × GNode)) (nid : String) (v : GNode)
    (j : String)
    (hv : ∃ dOld, findNode acc nid = some dOld ∧ dataCtor v.data = dataCtor dOld.data) :
    (findNode (setNode acc nid v) j).map (fun d => dataCtor d.data) =
      (findNode acc j).map (fun d => dataCtor d.data) := by
  by_cases hj : j = nid
  · subst hj
    obtain ⟨dOld, hOld, hctor⟩ := hv
    have hc : containsNode acc j = true := by
      rw [← findNode_isSome, hOld]; rfl
    rw [findNode_setNode_self, if_pos hc, hOld]
    simp [hctor]
  · rw [findNode_setNode_ne _ _ _ _ hj]

theorem ctorOf_foldParentNode (cs : List String) (ns : List (String × GNode))
    (pid j : String) :
    (findNode (cs.foldl (fun a c => setParentNode a c pid) ns) j).map
        (fun d => dataCtor d.data) =
      (findNode ns j).map (fun d => dataCtor d.data) := by
  rw [findNode_foldWrite setParentNode applyParentNode findNode_setParentNode
      applyParentNode_idem]
  by_cases hj : j ∈ cs
  · rw [if_pos hj]
    cases o : findNode ns j with
    | none => rfl
    | some x => simp [dataCtor_applyParentNode]
  · rw [if_neg hj]

theorem ctorOf_foldParentFeature (cs : List String) (ns : List (String × GNode))
    (pid j : String) :
    (findNode (cs.foldl (fun a c => setParentFeature a c pid) ns) j).map
        (fun d => dataCtor d.data) =
      (findNode ns j).map (fun d => dataCtor d.data) := by
  rw [findNode_foldWrite setParentFeature applyParentFeature findNode_setParentFeature
      applyParentFeature_idem]
  by_cases hj : j ∈ cs
  · rw [if_pos hj]
    cases o : findNode ns j with
    | none => rfl
    | some x => simp [dataCtor_applyParentFeature]
  · rw [if_neg hj]

theorem ctorOf_foldParentProblem (cs : List String) (ns : List (String × GNode))
    (pid j : String) :
    (findNode (cs.foldl (fun a c => setParentProblem a c pid) ns) j).map
        (fun d => dataCtor d.data) =
      (findNode ns j).map (fun d => dataCtor d.data) := by
  rw [findNode_foldWrite setParentProblem applyParentProblem findNode_setParentProblem
      applyParentProblem_idem]
  by_cases hj : j ∈ cs
  · rw [if_pos hj]
    cases o : findNode ns j with
    | none => rfl
    | some x => simp [dataCtor_applyParentProblem]
  · rw [if_neg hj]

/-- What a successful `wireNode` guarantees, with no well-formedness
assumptions: the child-list ids of the record (for the kind of the stored
node) were all present, and the pass preserves keys and node kinds. -/
theorem wireNode_ok_elim (acc : List (String × GNode)) (nid : String) (m : Meta)
    (acc' : List (String × GNode)) (h : wireNode acc nid m = .ok acc') :
    (∃ d, findNode acc nid = some d ∧
      ∀ x ∈ metaRefsFor (dataCtor d.data) m, containsNode acc x = true) ∧
    (∀ j, containsNode acc' j = containsNode acc j) ∧
    (∀ j, (findNode acc' j).map (fun d => dataCtor d.data) =
          (findNode acc j).map (fun d => dataCtor d.data)) := by
  rcases hfind : findNode acc nid with _ | ⟨⟨dn, data⟩⟩
  · rw [wireNode, hfind] at h
    cases h
  · cases data with
    | origin r0 =>
      simp only [wireNode, hfind] at h
      obtain ⟨cf, hcf, hres⟩ := bind_ok_elim _ _ _ h
      obtain ⟨rfl, hcfc⟩ := wireIds_ok_elim acc m.child_features cf hcf
      obtain rfl : _ = acc' := Option.some.inj (congrArg Except.toOption hres)
      refine ⟨⟨⟨dn, .origin r0⟩, rfl, ?_⟩, ?_, ?_⟩
      · simpa [metaRefsFor, dataCtor] using hcfc
      · intro j
        rw [containsNode_foldWrite setParentNode containsNode_setParentNode,
            containsNode_setNode]
      · intro j
        rw [ctorOf_foldParentNode]
        exact ctorOf_setNode acc nid _ j ⟨⟨dn, .origin r0⟩, hfind, rfl⟩
    | feature r0 =>
      simp only [wireNode, hfind] at h
      obtain ⟨cf, hcf, hres₁⟩ := bind_ok_elim _ _ _ h
      obtain ⟨rfl, hcfc⟩ := wireIds_ok_elim acc m.child_features cf hcf
      obtain ⟨cps, hcps, hres₂⟩ := bind_ok_elim _ _ _ hres₁
      have hcpsc := wirePairs_ok_elim acc m.child_problems cps hcps
      obtain rfl : _ = acc' := Option.some.inj (congrArg Except.toOption hres₂)
      refine ⟨⟨⟨dn, .feature r0⟩, rfl, ?_⟩, ?_, ?_⟩
      · simp only [metaRefsFor, dataCtor]
        intro x hx
        rcases List.mem_append.mp hx with hx1 | hx2
        · exact hcfc x hx1
        · obtain ⟨pl, hpl, rfl⟩ := List.mem_map.mp hx2
          exact hcpsc pl hpl
      · intro j
        rw [pairsFold_setParentFeature,
            containsNode_foldWrite setParentFeature containsNode_setParentFeature,
            containsNode_foldWrite setParentNode containsNode_setParentNode,
            containsNode_setNode]
      · intro j
        rw [pairsFold_setParentFeature, ctorOf_foldParentFeature, ctorOf_foldParentNode]
        exact ctorOf_setNode acc nid _ j ⟨⟨dn, .feature r0⟩, hfind, rfl⟩
    | problem r0 =>
      simp only [wireNode, hfind] at h
      obtain ⟨cf, hcf, hres₁⟩ := bind_ok_elim _ _ _ h
      obtain ⟨rfl, hcfc⟩ := wireIds_ok_elim acc m.child_features cf hcf
      obtain ⟨sols, hsols, hres₂⟩ := bind_ok_elim _ _ _ hres₁
      obtain ⟨rfl, hsolsc⟩ := wireIds_ok_elim acc m.solutions sols hsols
      obtain rfl : _ = acc' := Option.some.inj (congrArg Except.toOption hres₂)
      refine ⟨⟨⟨dn, .problem r0⟩, rfl, ?_⟩, ?_, ?_⟩
      · simp only [metaRefsFor, dataCtor]
        intro x hx
        rcases List.mem_append.mp hx with hx1 | hx2
        · exact hcfc x hx1
        · exact hsolsc x hx2
      · intro j
        rw [containsNode_foldWrite setParentProblem containsNode_setParentProblem,
            containsNode_foldWrite setParentNode containsNode_setParentNode,
            containsNode_setNode]
      · intro j
        rw [ctorOf_foldParentProblem, ctorOf_foldParentNode]
        exact ctorOf_setNode acc nid _ j ⟨⟨dn, .problem r0⟩, hfind, rfl⟩
    | solution r0 =>
      simp only [wireNode, hfind] at h
      obtain rfl : _ = acc' := Option.some.inj (congrArg Except.toOption h)
      refine ⟨⟨⟨dn, .solution r0⟩, rfl, by simp [metaRefsFor, dataCtor]⟩, ?_, ?_⟩
      · intro j
        rw [containsNode_setNode]
      · intro j
        exact ctorOf_setNode acc nid _ j ⟨⟨dn, .solution r0⟩, hfind, rfl⟩
    | success =>
      simp only [wireNode, hfind] at h
      obtain rfl : _ = acc' := Option.some.inj (congrArg Except.toOption h)
      exact ⟨⟨⟨dn, .success⟩, rfl, by simp [metaRefsFor, dataCtor]⟩,
        fun j => rfl, fun j => rfl⟩
    | failure =>
      simp only [wireNode, hfind] at h
      obtain rfl : _ = acc' := Option.some.inj (congrArg Except.toOption h)
      exact ⟨⟨⟨dn, .failure⟩, rfl, by simp [metaRefsFor, dataCtor]⟩,
        fun j => rfl, fun j => rfl⟩

/-- Pass-1 inversion. -/
theorem loadPass1_elim :
    ∀ (ms : List (String × Meta)) (t : List (String × GNode)),
      loadPass1 ms = .ok t →
      t.map Prod.fst = ms.map Prod.fst ∧
      ∀ pm ∈ ms, ∃ d, defaultNode pm.2 = .ok d ∧ (pm.1, d) ∈ t := by
  intro ms
  induction ms with
  | nil =>
    intro t h
    simp [loadPass1] at h
    subst h
    exact ⟨rfl, by simp⟩
  | cons pm rest ih =>
    intro t h
    obtain ⟨nid, m⟩ := pm
    simp only [loadPass1] at h
    obtain ⟨d, hd, hres⟩ := bind_ok_elim _ _ _ h
    obtain ⟨t', ht', hres₂⟩ := bind_ok_elim _ _ _ hres
    obtain rfl : _ = t := Option.some.inj (congrArg Except.toOption hres₂)
    obtain ⟨hkeys, hrest⟩ := ih t' ht'
    constructor
    · simp [hkeys]
    · intro q hq
      rcases List.mem_cons.mp hq with rfl | hq'
      · exact ⟨d, hd, List.mem_cons_self _ _⟩
      · obtain ⟨d', hd', hm'⟩ := hrest q hq'
        exact ⟨d', hd', List.mem_cons_of_mem _ hm'⟩

/-- Pass-1 constructors agree with the record's `type` string. -/
theorem defaultNode_typeMatches (m : Meta) (d : GNode)
    (h : defaultNode m = .ok d) : typeMatches m.type d.data = true := by
  rw [defaultNode] at h
  split at h <;> cases h <;> simp_all [typeMatches, dataCtor, NodeType.value]

/-- When the `type` string names the stored kind, the pass-2 lookups are
precisely the record's child references. -/
theorem metaRefsFor_eq (m : Meta) (d : NodeData) (h : typeMatches m.type d = true) :
    metaRefsFor (dataCtor d) m = metaChildRefs m := by
  have ht : m.type = (dataCtor d).value := by simpa [typeMatches] using h
  cases d <;> simp [metaRefsFor, metaChildRefs, ht, dataCtor, NodeType.value]

theorem any_fst_map {α : Type} (l : List (String × α)) (x : String) :
    (l.any fun p => p.1 == x) = (l.map Prod.fst).any (fun k => k == x) := by
  induction l with
  | nil => rfl
  | cons p rest ih => simp [List.any_cons, ih]

/-- A successful pass 2 implies every record's child-list ids were present. -/
theorem loadPass2_refs :
    ∀ (metas : List (String × Meta)) (acc final : List (String × GNode)),
      loadPass2 metas acc = .ok final →
      (∀ pm ∈ metas, ∃ d, findNode acc pm.1 = some d ∧
        typeMatches pm.2.type (GNode.data d) = true) →
      ∀ pm ∈ metas, ∀ x ∈ metaChildRefs pm.2, containsNode acc x = true := by
  intro metas
  induction metas with
  | nil => intro acc final _ _ pm hpm; simp at hpm
  | cons hd rest ih =>
    intro acc final h hkinds
    obtain ⟨nid, m⟩ := hd
    simp only [loadPass2] at h
    cases hw : wireNode acc nid m with
    | error e =>
      rw [hw] at h
      cases h
    | ok acc₁ =>
      rw [hw] at h
      simp only [] at h
      obtain ⟨⟨d, hfd, hrefs⟩, hcont, hctor⟩ := wireNode_ok_elim acc nid m acc₁ hw
      intro pm hpm x hx
      rcases List.mem_cons.mp hpm with heq | hpm'
      · obtain ⟨d₀, hd₀, htm⟩ := hkinds pm hpm
        have h1 : pm.1 = nid := by rw [heq]
        rw [h1, hfd] at hd₀
        obtain rfl : d = d₀ := Option.some.inj hd₀
        have h2 : pm.2 = m := by rw [heq]
        rw [← metaRefsFor_eq pm.2 d.data htm, h2] at hx
        exact hrefs x hx
      · have hkinds' : ∀ q ∈ rest, ∃ d', findNode acc₁ q.1 = some d' ∧
            typeMatches q.2.type (GNode.data d') = true := by
          intro q hq
          obtain ⟨d₁, hd₁, htm₁⟩ := hkinds q (List.mem_cons_of_mem _ hq)
          have hc := hctor q.1
          rw [hd₁] at hc
          cases hf : findNode acc₁ q.1 with
          | none => rw [hf] at hc; cases hc
          | some d' =>
            rw [hf] at hc
            refine ⟨d', rfl, ?_⟩
            have hcc : dataCtor d'.data = dataCtor d₁.data := by
              simpa using hc
            rw [typeMatches, hcc]
            rw [typeMatches] at htm₁
            exact htm₁
        have := ih acc₁ final h hkinds' pm hpm' x hx
        rw [← hcont x]
        exact this

/-! ## Claim C7 -/

/-- C7 counterexample: a document whose solution record points at absent
ids through `parent_problem` and `success_node` loads successfully — the
dangling references are silently replaced by `None` instead of raising
any error (and no `CorruptGraph` error exists in the code at all). -/
theorem c7_counterexample :
    loadNodes c7DocEx = .ok c7LoadedEx ∧
    docContains c7DocEx "GHOST_P" = false ∧
    docContains c7DocEx "GHOST_S" = false ∧
    findNode c7LoadedEx.nodes "S1" = some ⟨"sol", .solution ⟨none, none⟩⟩ := by
  refine ⟨by rfl, by decide, by decide, by decide⟩

/-- C7 (amended): dangling ids in child lists (an Origin's or Feature's
`child_features`, a Feature's `child_problems`, a Problem's
`child_features` or `solutions`) do make the load fail — with a bare
`KeyError`, not a `CorruptGraph` error: a load can only succeed when every
such id is a key of the node table.  Dangling parent back-pointers and
success pointers, by contrast, are silently dropped (see the
counterexample). -/
theorem c7_dangling_amended (doc : Doc) (g : Graph)
    (hnd : (doc.nodes.map Prod.fst).Nodup)
    (hok : loadNodes doc = .ok g) :
    ∀ pm ∈ doc.nodes, ∀ x ∈ metaChildRefs pm.2, docContains doc x = true := by
  rw [loadNodes] at hok
  cases h1 : loadPass1 doc.nodes with
  | error e => rw [h1] at hok; cases hok
  | ok temp =>
    rw [h1] at hok
    simp only [] at hok
    by_cases hr : containsNode temp doc.root_id = true
    · rw [if_pos hr] at hok
      by_cases hs : containsNode temp doc.success_id = true
      · rw [if_pos hs] at hok
        by_cases hf : containsNode temp doc.failure_id = true
        · rw [if_pos hf] at hok
          obtain ⟨hkeys, hdef⟩ := loadPass1_elim doc.nodes temp h1
          have hndt : (temp.map Prod.fst).Nodup := by rw [hkeys]; exact hnd
          cases h2 : loadPass2 doc.nodes temp with
          | error e => rw [h2] at hok; cases hok
          | ok final =>
            have hkinds : ∀ pm ∈ doc.nodes, ∃ d, findNode temp pm.1 = some d ∧
                typeMatches pm.2.type (GNode.data d) = true := by
              intro pm hpm
              obtain ⟨d, hd, hmem⟩ := hdef pm hpm
              exact ⟨d, findNode_of_mem_nodup temp hndt (pm.1, d) hmem,
                defaultNode_typeMatches pm.2 d hd⟩
            intro pm hpm x hx
            have hc := loadPass2_refs doc.nodes temp final h2 hkinds pm hpm x hx
            have hck : containsNode temp x = docContains doc x := by
              rw [containsNode, docContains, any_fst_map, any_fst_map, hkeys]
            rw [← hck]
            exact hc
        · rw [if_neg hf] at hok; cases hok
      · rw [if_neg hs] at hok; cases hok
    · rw [if_neg hr] at hok; cases hok

/-- C7 witness: the amended statement applied to the saved form of
`c6GraphEx`, at its root record and the child id `F1` that record lists. -/
theorem c7_dangling_witness :
    docContains (saveNodes c6GraphEx) "F1" = true :=
  c7_dangling_amended (saveNodes c6GraphEx) c6LoadedEx (by decide) (by rfl)
    ("ORIGIN", saveMeta ⟨"root", .origin ⟨["F1"]⟩⟩) (by decide) "F1" (by decide)

end FE
